import Mathlib

/-!
# Verification of the octrawallet wallet state engine

Shallow embedding of the transaction-storage / merge logic
(`src/utils/txStorage.ts`), the nonce manager (`src/utils/nonceManager.ts`),
the key/amount codec (`src/utils/crypto.ts`), and the lock/session layer
(`src/utils/wallet.ts`, `src/App.tsx`).

Modelling conventions:
* JavaScript numbers used as unix timestamps and nonces are modelled as `Int`
  (the code only compares, adds and maxes them; the `|| 0` fallback in the
  sort comparators is the identity on integer-modelled timestamps, and the
  comparator `(b.timestamp || 0) - (a.timestamp || 0)` orders by timestamp
  descending).
* JavaScript `undefined`-able fields are modelled as `Option`; the `||`
  operator on numbers treats `0` as falsy and is modelled by `jsIntOr`,
  on strings it treats `""` as falsy and is modelled by `jsStrOr`.
* `Array.prototype.sort` is required by the language spec to be stable;
  a stable sort with the comparator above is modelled by
  `List.insertionSort tsLE` (Mathlib's insertion sort is stable).
* JS `Map` (insertion-ordered, `set` keeps the original slot of an existing
  key) is modelled by an association list with `jsMapSet`/`jsMapGet`.
* `localStorage`/`sessionStorage` are modelled as association lists from
  keys to (parsed) values; the JSON round trip is taken as the identity.
-/

/-- Transaction status tag of `StoredTransaction.status`
(`'pending' | 'confirmed' | 'failed'` in `txStorage.ts`). -/
inductive TxStatus where
  | pending
  | confirmed
  | failed
deriving DecidableEq, Repr

/-- `StoredTransaction` from `src/utils/txStorage.ts`:
`TransactionHistory` minus required `epoch`, plus optional
`epoch`, `status`, `createdAt`, `lastCheckedAt`. -/
structure StoredTransaction where
  hash : String
  from_ : String
  to_ : String
  amount : String
  timestamp : Int
  nonce : Int
  priority : Option String
  epoch : Option Int
  status : Option TxStatus
  createdAt : Option Int
  lastCheckedAt : Option Int
deriving DecidableEq, Repr

/-- `TransactionHistory` from `src/types.ts` (the remote/API record shape). -/
structure TransactionHistory where
  hash : String
  epoch : Int
  from_ : String
  to_ : String
  amount : String
  timestamp : Int
  priority : Option String
  nonce : Int
deriving DecidableEq, Repr

/-- JS `a || b` on possibly-undefined numbers: `undefined` and `0` are falsy. -/
def jsIntOr (a : Option Int) (b : Int) : Int :=
  match a with
  | some x => if x = 0 then b else x
  | none => b

/-- JS `a || b` on strings: the empty string is falsy. -/
def jsStrOr (a : String) (b : String) : String :=
  if a = "" then b else a

/-- JS `a || b` where `a` is a possibly-undefined string. -/
def jsOptStrOr (a : Option String) (b : String) : String :=
  match a with
  | some s => jsStrOr s b
  | none => b

/-- `normalizePriority` helper from `txStorage.ts`: missing/empty priorities and
anything that does not lower-case to `"express"` become `"normal"`. -/
def jsToLower (s : String) : String :=
  String.mk (s.data.map Char.toLower)

def normalizePriority (priority : Option String) : String :=
  match priority with
  | none => "normal"
  | some s => if jsToLower s = "express" then "express" else "normal"

/-- JS `Map.get`. -/
def jsMapGet {α : Type} (m : List (String × α)) (k : String) : Option α :=
  (m.find? (fun p => p.1 = k)).map Prod.snd

/-- JS `Map.set`: an existing key keeps its insertion slot and only the value
is replaced; a new key is appended at the end. -/
def jsMapSet {α : Type} (m : List (String × α)) (k : String) (v : α) :
    List (String × α) :=
  if m.any (fun p => p.1 = k) then
    m.map (fun p => if p.1 = k then (k, v) else p)
  else
    m ++ [(k, v)]

/-- Conversion of an API `TransactionHistory` into the `StoredTransaction`
put into `apiTxMap` by `mergeTransactions` (`{...tx, priority: normalized,
status: 'confirmed', lastCheckedAt: now}`). -/
def apiEntry (now : Int) (tx : TransactionHistory) : StoredTransaction :=
  { hash := tx.hash
    from_ := tx.from_
    to_ := tx.to_
    amount := tx.amount
    timestamp := tx.timestamp
    nonce := tx.nonce
    priority := some (normalizePriority tx.priority)
    epoch := some tx.epoch
    status := some TxStatus.confirmed
    createdAt := none
    lastCheckedAt := some now }

/-- The record built for a hash present in the API results:
`{...apiTx, priority: apiTx.priority || (storedTx ? normalizePriority(storedTx.priority)
: 'normal'), createdAt: storedTx?.createdAt || apiTx.timestamp, status: 'confirmed'}`. -/
def mergeApiEntry (apiTx : StoredTransaction) (storedTx : Option StoredTransaction) :
    StoredTransaction :=
  { apiTx with
    priority := some (jsOptStrOr apiTx.priority
      (match storedTx with
       | some st => normalizePriority st.priority
       | none => "normal"))
    createdAt := some (jsIntOr (storedTx.bind (fun st => st.createdAt)) apiTx.timestamp)
    status := some TxStatus.confirmed }

/-- Descending-timestamp ordering used by the sort comparator
`(b.timestamp || 0) - (a.timestamp || 0)`. -/
def tsLE (a b : StoredTransaction) : Prop :=
  b.timestamp ≤ a.timestamp

instance : DecidableRel tsLE := fun a b =>
  inferInstanceAs (Decidable (b.timestamp ≤ a.timestamp))

instance : IsTotal StoredTransaction tsLE :=
  ⟨fun a b => Int.le_total b.timestamp a.timestamp⟩

instance : IsTrans StoredTransaction tsLE :=
  ⟨fun _ _ _ h₁ h₂ => le_trans h₂ h₁⟩

/-- `apiTxMap` built by `mergeTransactions`: the API transactions keyed by
hash (later duplicates overwrite in place, JS `Map` semantics). -/
def apiTxMapOf (apiTransactions : List TransactionHistory) (now : Int) :
    List (String × StoredTransaction) :=
  apiTransactions.foldl (fun m tx => jsMapSet m tx.hash (apiEntry now tx)) []

/-- `storedTxMap` built by `mergeTransactions`. -/
def storedTxMapOf (stored : List StoredTransaction) :
    List (String × StoredTransaction) :=
  stored.foldl (fun m tx => jsMapSet m tx.hash tx) []

/-- The second `mergedMap` pass of `mergeTransactions`: stored transactions
absent from the map are added when `confirmed` (refreshing `lastCheckedAt`),
`pending` or `failed`, and dropped when their status is unset. -/
def step2 (now : Int) (m : List (String × StoredTransaction))
    (tx : StoredTransaction) : List (String × StoredTransaction) :=
  if m.any (fun p => p.1 = tx.hash) then m
  else
    match tx.status with
    | some TxStatus.confirmed =>
        jsMapSet m tx.hash { tx with lastCheckedAt := some now }
    | some TxStatus.pending => jsMapSet m tx.hash tx
    | some TxStatus.failed => jsMapSet m tx.hash tx
    | none => m

/-- The full `mergedMap` of `mergeTransactions`: all API entries first
(patched against the stored map), then the surviving stored entries. -/
def mergedMapOf (stored : List StoredTransaction)
    (apiTransactions : List TransactionHistory) (now : Int) :
    List (String × StoredTransaction) :=
  stored.foldl (step2 now)
    ((apiTxMapOf apiTransactions now).foldl
      (fun m p => jsMapSet m p.1 (mergeApiEntry p.2 (jsMapGet (storedTxMapOf stored) p.1)))
      [])

/-- `mergeTransactions` from `src/utils/txStorage.ts` (lines 143–216), with
the current time `Date.now() / 1000` passed in as `now`: build the merged
map, sort its values by timestamp descending and truncate to 50. -/
def mergeTransactions (stored : List StoredTransaction)
    (apiTransactions : List TransactionHistory) (now : Int) :
    List StoredTransaction :=
  (((mergedMapOf stored apiTransactions now).map Prod.snd).insertionSort tsLE).take 50

/-- The per-address transaction cache in `localStorage`, keyed by
`'octra_tx_' + address`; values are the JSON-parsed transaction lists. -/
def TxStorage := List (String × List StoredTransaction)

def STORAGE_PREFIX : String := "octra_tx_"

def getStorageKey (address : String) : String :=
  STORAGE_PREFIX ++ address

/-- `loadTransactions`: missing key (or unparsable data) loads as `[]`. -/
def loadTransactions (storage : TxStorage) (address : String) :
    List StoredTransaction :=
  match jsMapGet storage (getStorageKey address) with
  | some txs => txs
  | none => []

/-- `saveTransactions`: never overwrites existing data with an empty list. -/
def saveTransactions (storage : TxStorage) (address : String)
    (transactions : List StoredTransaction) : TxStorage :=
  if transactions.length = 0 ∧ (loadTransactions storage address).length > 0 then
    storage
  else
    jsMapSet storage (getStorageKey address) transactions

/-- The normalized incoming transaction built at the top of `upsertTransaction`
(`{...tx, priority: normalizePriority(tx.priority)}`). -/
def normalizeTx (tx : StoredTransaction) : StoredTransaction :=
  { tx with priority := some (normalizePriority tx.priority) }

/-- The list `upsertTransaction` builds before sorting: update in place when
the hash exists (preserving `createdAt`, recomputing `priority` and
`lastCheckedAt`), else unshift the new transaction.  The spread
`{...existing[index], ...normalizedTx, ...}` overwrites every field with the
normalized transaction's, then recomputes the three explicit fields. -/
def upsertedList (storage : TxStorage) (address : String)
    (tx : StoredTransaction) (now : Int) : List StoredTransaction :=
  let existing := loadTransactions storage address
  let normalizedTx := normalizeTx tx
  match existing.findIdx? (fun t => t.hash = normalizedTx.hash) with
  | some i =>
      let old := existing.getD i normalizedTx
      existing.set i
        { normalizedTx with
          priority := some (jsOptStrOr normalizedTx.priority
            (normalizePriority old.priority))
          createdAt := some (jsIntOr old.createdAt (jsIntOr normalizedTx.createdAt now))
          lastCheckedAt := some now }
  | none =>
      { normalizedTx with
        priority := some (jsOptStrOr normalizedTx.priority "normal")
        createdAt := some (jsIntOr normalizedTx.createdAt now)
        lastCheckedAt := some now } :: existing

/-- `upsertTransaction` (lines 62–107 of `txStorage.ts`); `now` stands for
`Date.now() / 1000`.  Returns the list it stores together with the updated
storage. -/
def upsertTransaction (storage : TxStorage) (address : String)
    (tx : StoredTransaction) (now : Int) :
    List StoredTransaction × TxStorage :=
  let sorted := ((upsertedList storage address tx now).insertionSort tsLE).take 50
  (sorted, saveTransactions storage address sorted)

/-! ## Nonce manager (`src/utils/nonceManager.ts`) -/

/-- Per-address `NonceState`. -/
structure NonceState where
  currentNonce : Int
  pendingNonce : Option Int
  locked : Bool
deriving DecidableEq, Repr

/-- The module-level `nonceStates` map. -/
def NonceMap := List (String × NonceState)

/-- Default state used when an address has no entry yet
(`{currentNonce: -1, pendingNonce: null, locked: false}`). -/
def defaultNonceState : NonceState :=
  { currentNonce := -1, pendingNonce := none, locked := false }

def getNonceState (states : NonceMap) (address : String) : NonceState :=
  (jsMapGet states address).getD defaultNonceState

def inProgressMessage : String := "Transaction already in progress. Please wait..."

/-- `getNextNonce`.  The outcome of the awaited
`fetchCurrentNonce(address)` call is passed in as `fetchResult`; the function
returns the thrown/returned outcome together with the final `nonceStates`
(the intermediate locked state taken while awaiting is internal). -/
def getNextNonce (states : NonceMap) (address : String)
    (fetchResult : Except String Int) : Except String Int × NonceMap :=
  let state := getNonceState states address
  if state.locked then
    (Except.error inProgressMessage, states)
  else
    match fetchResult with
    | Except.error e =>
        (Except.error e,
          jsMapSet states address { state with locked := false, pendingNonce := none })
    | Except.ok networkNonce =>
        let baseNonce := max networkNonce state.currentNonce
        let nextNonce := baseNonce + 1
        (Except.ok nextNonce,
          jsMapSet states address
            { currentNonce := baseNonce, pendingNonce := some nextNonce, locked := true })

/-- `releaseNonce(address, success)`. -/
def releaseNonce (states : NonceMap) (address : String) (success : Bool) : NonceMap :=
  match jsMapGet states address with
  | none => states
  | some state =>
      let state' :=
        if success ∧ state.pendingNonce.isSome then
          { state with currentNonce := state.pendingNonce.getD state.currentNonce }
        else state
      jsMapSet states address { state' with locked := false, pendingNonce := none }

/-- `clearNonceState(address)` (`Map.delete`). -/
def clearNonceState (states : NonceMap) (address : String) : NonceMap :=
  states.filter (fun p => p.1 ≠ address)

/-- `isNonceLocked(address)` (`state?.locked || false`). -/
def isNonceLocked (states : NonceMap) (address : String) : Bool :=
  (getNonceState states address).locked

/-! ## Session / lock layer (`src/utils/wallet.ts`, `src/App.tsx`) -/

/-- Decrypted wallet data (`WalletData` in `src/types.ts`). -/
structure WalletData where
  priv : String
  addr : String
  rpc : String
deriving DecidableEq, Repr

/-- Browser-side mutable state touched by lock/logout: `localStorage`
(holding the encrypted vault under `octra_wallet` and the per-address
transaction caches), `sessionStorage` (session + decrypted-key cache),
and the in-memory nonce map.  Values are kept as opaque strings. -/
structure BrowserState where
  localStore : List (String × String)
  sessionStore : List (String × String)
  nonceStates : NonceMap

def WALLET_KEY : String := "octra_wallet"

def SESSION_KEY : String := "octra_wallet_session"

def decryptedCacheKey (address : String) : String :=
  "octra_wallet_decrypted_" ++ address

/-- `Storage.removeItem`. -/
def removeStorageItem (store : List (String × String)) (key : String) :
    List (String × String) :=
  store.filter (fun p => p.1 ≠ key)

/-- `clearUnlockSession()` (`wallet.ts` lines 271–273). -/
def clearUnlockSession (st : BrowserState) : BrowserState :=
  { st with sessionStore := removeStorageItem st.sessionStore SESSION_KEY }

/-- `clearDecryptedWalletCache(address)` (`wallet.ts` lines 332–335). -/
def clearDecryptedWalletCache (address : String) (st : BrowserState) : BrowserState :=
  { st with sessionStore := removeStorageItem st.sessionStore (decryptedCacheKey address) }

/-- `clearNonceState` applied to the browser state. -/
def clearNonceStateOf (address : String) (st : BrowserState) : BrowserState :=
  { st with nonceStates := clearNonceState st.nonceStates address }

/-- `handleLock` from `src/App.tsx` (lines 147–158): clears the nonce state and
decrypted-key cache of the current wallet's address (when a wallet is loaded)
and the unlock session; it touches nothing in `localStorage`. -/
def handleLock (wallet : Option WalletData) (st : BrowserState) : BrowserState :=
  match wallet with
  | some w => clearUnlockSession (clearDecryptedWalletCache w.addr (clearNonceStateOf w.addr st))
  | none => clearUnlockSession st

/-! ## Amount codec (`amountToMicroOCT` in `src/utils/crypto.ts`)

JS string primitives (`trim`, `split('.')`, `startsWith`, `padEnd`,
`slice`) are modelled on the underlying character lists so that all
definitions evaluate inside the kernel. -/

/-- `s.trim()`. -/
def jsTrim (s : String) : String :=
  String.mk (((s.data.dropWhile Char.isWhitespace).reverse.dropWhile
    Char.isWhitespace).reverse)

/-- `s.split(sep)` for a single-character separator. -/
def splitOnChar (sep : Char) : List Char → List (List Char)
  | [] => [[]]
  | c :: rest =>
    match splitOnChar sep rest with
    | [] => [[c]]
    | g :: gs => if c = sep then [] :: g :: gs else (c :: g) :: gs

/-- Numeric value of a decimal-digit string (the value `BigInt(s)` yields for
an all-digit string). -/
def digitsToNat (s : String) : Nat :=
  s.data.foldl (fun acc c => acc * 10 + (c.toNat - '0'.toNat)) 0

/-- The regex test `/^\d+$/.test(s)`. -/
def isDigitString (s : String) : Bool :=
  s ≠ "" && s.data.all Char.isDigit

/-- `s.padEnd(6, '0')`. -/
def padEnd6Zeros (s : String) : String :=
  String.mk (s.data ++ List.replicate (6 - s.data.length) '0')

/-- `s.slice(0, 6)`. -/
def slice6 (s : String) : String :=
  String.mk (s.data.take 6)

instance {ε α : Type} [DecidableEq ε] [DecidableEq α] : DecidableEq (Except ε α)
  | Except.ok a, Except.ok b => decidable_of_iff (a = b) (by simp)
  | Except.error a, Except.error b => decidable_of_iff (a = b) (by simp)
  | Except.ok _, Except.error _ => isFalse (by simp)
  | Except.error _, Except.ok _ => isFalse (by simp)

/-- `amountToMicroOCT` (`crypto.ts` lines 322–370); `throw` is modelled by
`Except.error` carrying the message. -/
def amountToMicroOCT (amount : String) : Except String String :=
  if amount = "" || jsTrim amount = "" then
    Except.error "Amount cannot be empty"
  else
    let trimmed := jsTrim amount
    if trimmed = "NaN" || trimmed = "Infinity" || trimmed = "-Infinity" then
      Except.error "Invalid amount: NaN or Infinity"
    else if trimmed.data.head? = some '-' then
      Except.error "Amount cannot be negative"
    else
      let parts := (splitOnChar '.' trimmed.data).map String.mk
      if parts.length > 2 then
        Except.error "Invalid amount format"
      else
        let whole := parts.headD ""
        let decimals := parts.getD 1 ""
        if !isDigitString whole then
          Except.error "Invalid amount format"
        else if decimals.length > 6 then
          Except.error "Amount cannot have more than 6 decimal places"
        else if decimals ≠ "" && !decimals.data.all Char.isDigit then
          Except.error "Invalid decimal format"
        else
          let wholeVal := digitsToNat whole
          let decimalsPadded := slice6 (padEnd6Zeros decimals)
          let decimalsVal := digitsToNat decimalsPadded
          Except.ok (toString (wholeVal * 1000000 + decimalsVal))

/-! ## Key validation (`validatePrivateKey` in `src/utils/crypto.ts`)

`isBase64(str)` is `btoa(atob(str)) === str`, where `atob` implements the
WHATWG forgiving-base64 decoder (strip ASCII whitespace, allow up to two
trailing `=` when the length is a multiple of 4, reject a length of 1 mod 4
and characters outside the alphabet) and `btoa` the standard encoder.
`parseInt(chunk, 16)` and the coercion of its `NaN` result to the byte `0`
performed by `Uint8Array.from` are modelled by `parseIntHex`/`toUint8`. -/

def base64CharVal (c : Char) : Option Nat :=
  if 'A' ≤ c ∧ c ≤ 'Z' then some (c.toNat - 'A'.toNat)
  else if 'a' ≤ c ∧ c ≤ 'z' then some (c.toNat - 'a'.toNat + 26)
  else if '0' ≤ c ∧ c ≤ '9' then some (c.toNat - '0'.toNat + 52)
  else if c = '+' then some 62
  else if c = '/' then some 63
  else none

def base64Char (n : Nat) : Char :=
  if n < 26 then Char.ofNat ('A'.toNat + n)
  else if n < 52 then Char.ofNat ('a'.toNat + n - 26)
  else if n < 62 then Char.ofNat ('0'.toNat + n - 52)
  else if n = 62 then '+'
  else '/'

def isAsciiWhitespace (c : Char) : Bool :=
  c = ' ' || c = '\t' || c = '\n' || c = '\x0c' || c = '\r'

/-- Decode a cleaned base64 character sequence into bytes (6-bit groups;
a trailing group of 2 or 3 characters yields 1 or 2 bytes, extra bits
discarded). -/
def base64DecodeChars : List Char → Option (List Nat)
  | [] => some []
  | [_] => none
  | [c1, c2] => do
      let v1 ← base64CharVal c1
      let v2 ← base64CharVal c2
      some [v1 * 4 + v2 / 16]
  | [c1, c2, c3] => do
      let v1 ← base64CharVal c1
      let v2 ← base64CharVal c2
      let v3 ← base64CharVal c3
      some [v1 * 4 + v2 / 16, (v2 % 16) * 16 + v3 / 4]
  | c1 :: c2 :: c3 :: c4 :: rest => do
      let v1 ← base64CharVal c1
      let v2 ← base64CharVal c2
      let v3 ← base64CharVal c3
      let v4 ← base64CharVal c4
      let tail ← base64DecodeChars rest
      some ([v1 * 4 + v2 / 16, (v2 % 16) * 16 + v3 / 4, (v3 % 4) * 64 + v4] ++ tail)

/-- `atob`: forgiving-base64 decode to a byte list, `none` on
`InvalidCharacterError`. -/
def atob (s : String) : Option (List Nat) :=
  let data := s.data.filter (fun c => !isAsciiWhitespace c)
  let data :=
    if data.length % 4 = 0 then
      match data.reverse with
      | '=' :: '=' :: rest => rest.reverse
      | '=' :: rest => rest.reverse
      | _ => data
    else data
  if data.length % 4 = 1 then none
  else base64DecodeChars data

/-- Encode a byte list into base64 characters with `=` padding. -/
def base64EncodeBytes : List Nat → List Char
  | [] => []
  | [b1] => [base64Char (b1 / 4), base64Char ((b1 % 4) * 16), '=', '=']
  | [b1, b2] =>
      [base64Char (b1 / 4), base64Char ((b1 % 4) * 16 + b2 / 16),
       base64Char ((b2 % 16) * 4), '=']
  | b1 :: b2 :: b3 :: rest =>
      [base64Char (b1 / 4), base64Char ((b1 % 4) * 16 + b2 / 16),
       base64Char ((b2 % 16) * 4 + b3 / 64), base64Char (b3 % 64)] ++
      base64EncodeBytes rest

/-- `btoa` on a binary string, byte-level. -/
def btoa (bytes : List Nat) : String :=
  String.mk (base64EncodeBytes bytes)

/-- `isBase64` (`crypto.ts` lines 424–430). -/
def isBase64 (s : String) : Bool :=
  match atob s with
  | some bytes => btoa bytes = s
  | none => false

def hexDigitVal (c : Char) : Option Nat :=
  if '0' ≤ c ∧ c ≤ '9' then some (c.toNat - '0'.toNat)
  else if 'a' ≤ c ∧ c ≤ 'f' then some (c.toNat - 'a'.toNat + 10)
  else if 'A' ≤ c ∧ c ≤ 'F' then some (c.toNat - 'A'.toNat + 10)
  else none

/-- JS `parseInt(s, 16)`: skip whitespace, optional sign, optional `0x`/`0X`,
then the longest prefix of hex digits; `none` models `NaN`. -/
def parseIntHex (s : String) : Option Int :=
  let cs := s.data.dropWhile (fun c => isAsciiWhitespace c)
  let signAndRest : Int × List Char :=
    match cs with
    | '-' :: rest => (-1, rest)
    | '+' :: rest => (1, rest)
    | _ => (1, cs)
  let cs₂ :=
    match signAndRest.2 with
    | '0' :: 'x' :: rest => rest
    | '0' :: 'X' :: rest => rest
    | _ => signAndRest.2
  let digits := cs₂.takeWhile (fun c => (hexDigitVal c).isSome)
  if digits = [] then none
  else
    some (signAndRest.1 *
      (digits.foldl (fun acc c => acc * 16 + ((hexDigitVal c).getD 0)) (0 : Nat) : Nat))

/-- The byte `Uint8Array.from` stores for a chunk: `ToUint8` of the
`parseInt` result, with `NaN` becoming `0`. -/
def toUint8 (v : Option Int) : Nat :=
  match v with
  | none => 0
  | some z => (z % 256).toNat

/-- JS line terminators, which `.` does not match. -/
def isLineTerminator (c : Char) : Bool :=
  c = '\n' || c = '\r' || c.toNat = 0x2028 || c.toNat = 0x2029

/-- `str.match(/.{1,2}/g)`: scan left to right; at each position greedily
match one or two non-line-terminator characters, skipping positions that
cannot start a match.  The empty result models JS `null`. -/
def matchChunks12 : List Char → List (List Char)
  | [] => []
  | c :: rest =>
    if isLineTerminator c then matchChunks12 rest
    else
      match rest with
      | [] => [[c]]
      | c2 :: rest2 =>
        if isLineTerminator c2 then [c] :: matchChunks12 rest2
        else [c, c2] :: matchChunks12 rest2

/-- `validatePrivateKey` (`crypto.ts` lines 435–452).  A `null` result of
`match` makes the non-null assertion and subsequent `.map` throw, which the
`catch` turns into `false`. -/
def validatePrivateKey (key : String) : Bool :=
  if isBase64 key then
    ((atob key).getD []).length = 32
  else
    let hexChars :=
      match key.data with
      | '0' :: 'x' :: rest => rest
      | l => l
    match matchChunks12 hexChars with
    | [] => false
    | chunks => (chunks.map (fun ch => toUint8 (parseIntHex (String.mk ch)))).length = 32

/-! ## Basic association-list lemmas -/

theorem jsMapGet_cons {α : Type} (p : String × α) (m : List (String × α)) (k : String) :
    jsMapGet (p :: m) k = if p.1 = k then some p.2 else jsMapGet m k := by
  by_cases hp : p.1 = k
  · simp [jsMapGet, List.find?_cons_of_pos, hp]
  · simp [jsMapGet, List.find?_cons_of_neg, hp]

theorem jsMapGet_jsMapSet_self {α : Type} (m : List (String × α)) (k : String) (v : α) :
    jsMapGet (jsMapSet m k v) k = some v := by
  unfold jsMapSet
  by_cases h : m.any (fun p => p.1 = k)
  · rw [if_pos h]
    induction m with
    | nil => simp at h
    | cons p m ih =>
      by_cases hp : p.1 = k
      · simp [List.map_cons, jsMapGet_cons, hp]
      · have h' : m.any (fun p => p.1 = k) = true := by
          simpa [List.any_cons, hp] using h
        simpa [List.map_cons, jsMapGet_cons, hp] using ih h'
  · rw [if_neg h]
    induction m with
    | nil => simp [jsMapGet]
    | cons p m ih =>
      have hp : ¬ p.1 = k := fun hk => h (by simp [List.any_cons, hk])
      have h' : ¬ m.any (fun p => p.1 = k) = true :=
        fun hm => h (by simp [List.any_cons, hm])
      simpa [List.cons_append, jsMapGet_cons, hp] using ih h'

theorem jsMapGet_jsMapSet_ne {α : Type} (m : List (String × α)) (k k' : String) (v : α)
    (h : k' ≠ k) : jsMapGet (jsMapSet m k v) k' = jsMapGet m k' := by
  have hkk : ¬ (k = k') := fun hk => h hk.symm
  unfold jsMapSet
  by_cases hm : m.any (fun p => p.1 = k)
  · rw [if_pos hm]
    clear hm
    induction m with
    | nil => rfl
    | cons p m ih =>
      by_cases hp : p.1 = k
      · have hp' : ¬ p.1 = k' := by rw [hp]; exact fun e => h e.symm
        simpa [List.map_cons, jsMapGet_cons, hp, hp', hkk] using ih
      · by_cases hp' : p.1 = k'
        · simp [List.map_cons, jsMapGet_cons, hp, hp', h, hkk]
        · simpa [List.map_cons, jsMapGet_cons, hp, hp', h, hkk] using ih
  · rw [if_neg hm]
    clear hm
    induction m with
    | nil => simp [jsMapGet_cons, jsMapGet, hkk]
    | cons p m ih =>
      by_cases hp' : p.1 = k'
      · simp [List.cons_append, jsMapGet_cons, hp']
      · simpa [List.cons_append, jsMapGet_cons, hp'] using ih

theorem jsMapGet_removeStorageItem_self (store : List (String × String)) (k : String) :
    jsMapGet (removeStorageItem store k) k = none := by
  induction store with
  | nil => rfl
  | cons p m ih =>
    by_cases hp : p.1 = k
    · simpa [removeStorageItem, List.filter_cons, hp] using ih
    · simpa [removeStorageItem, List.filter_cons, hp, jsMapGet_cons] using ih

theorem jsMapGet_removeStorageItem_ne (store : List (String × String)) (k k' : String)
    (h : k' ≠ k) : jsMapGet (removeStorageItem store k) k' = jsMapGet store k' := by
  have hkk : ¬ (k = k') := fun e => h e.symm
  induction store with
  | nil => rfl
  | cons p m ih =>
    by_cases hp : p.1 = k
    · have hp' : ¬ p.1 = k' := by rw [hp]; exact fun e => h e.symm
      simpa [removeStorageItem, List.filter_cons, hp, jsMapGet_cons, hp', hkk] using ih
    · by_cases hp' : p.1 = k'
      · simp [removeStorageItem, List.filter_cons, hp, jsMapGet_cons, hp', h, hkk]
      · simpa [removeStorageItem, List.filter_cons, hp, jsMapGet_cons, hp', h, hkk] using ih

theorem jsMapGet_eraseKey_self {α : Type} (m : List (String × α)) (k : String) :
    jsMapGet (m.filter (fun p => p.1 ≠ k)) k = none := by
  induction m with
  | nil => rfl
  | cons p m ih =>
    by_cases hp : p.1 = k
    · simpa [List.filter_cons, hp] using ih
    · simpa [List.filter_cons, hp, jsMapGet_cons] using ih

theorem jsMapGet_eraseKey_ne {α : Type} (m : List (String × α)) (k k' : String)
    (h : k' ≠ k) : jsMapGet (m.filter (fun p => p.1 ≠ k)) k' = jsMapGet m k' := by
  have hkk : ¬ (k = k') := fun e => h e.symm
  induction m with
  | nil => rfl
  | cons p m ih =>
    by_cases hp : p.1 = k
    · have hp' : ¬ p.1 = k' := by rw [hp]; exact fun e => h e.symm
      simpa [List.filter_cons, hp, jsMapGet_cons, hp', hkk] using ih
    · by_cases hp' : p.1 = k'
      · simp [List.filter_cons, hp, jsMapGet_cons, hp', h, hkk]
      · simpa [List.filter_cons, hp, jsMapGet_cons, hp', h, hkk] using ih

/-! ## C9: `saveTransactions` never clears a non-empty cache -/

/-- C9: for every address whose persisted transaction list is non-empty,
`saveTransactions(address, [])` leaves the storage unchanged, and no call to
`saveTransactions` can turn the persisted non-empty list into an empty one. -/
theorem saveTransactions_never_clears (storage : TxStorage) (address : String)
    (h : loadTransactions storage address ≠ []) :
    saveTransactions storage address [] = storage ∧
    ∀ txs, loadTransactions (saveTransactions storage address txs) address ≠ [] := by
  have hlen : (loadTransactions storage address).length > 0 :=
    List.length_pos.mpr h
  refine ⟨by simp [saveTransactions, hlen], ?_⟩
  intro txs
  cases txs with
  | nil => simpa [saveTransactions, hlen] using h
  | cons t ts =>
    simp [saveTransactions, loadTransactions, jsMapGet_jsMapSet_self]

/-- Sample stored transaction used in concrete instances. -/
def demoTx : StoredTransaction :=
  { hash := "a", from_ := "s", to_ := "r", amount := "1", timestamp := 5,
    nonce := 1, priority := some "normal", epoch := none,
    status := some TxStatus.confirmed, createdAt := some 5, lastCheckedAt := some 5 }

def demoStorage : TxStorage := [(getStorageKey "a", [demoTx])]

/-- Witness for C9 at a concrete non-empty store. -/
theorem saveTransactions_never_clears_witness :
    saveTransactions demoStorage "a" [] = demoStorage ∧
    ∀ txs, loadTransactions (saveTransactions demoStorage "a" txs) "a" ≠ [] :=
  saveTransactions_never_clears demoStorage "a" (by decide)

/-! ## C2: at most one outstanding nonce reservation per address -/

/-- Evaluation of `getNextNonce` when the address is locked. -/
theorem getNextNonce_of_locked (states : NonceMap) (address : String)
    (fetchResult : Except String Int) (h : isNonceLocked states address = true) :
    getNextNonce states address fetchResult = (Except.error inProgressMessage, states) := by
  simp only [isNonceLocked] at h
  simp [getNextNonce, h]

/-- Evaluation of `getNextNonce` when the address is unlocked and the remote
fetch succeeds. -/
theorem getNextNonce_of_unlocked_ok (states : NonceMap) (address : String) (v : Int)
    (h : isNonceLocked states address = false) :
    getNextNonce states address (Except.ok v) =
      (Except.ok (max v (getNonceState states address).currentNonce + 1),
        jsMapSet states address
          { currentNonce := max v (getNonceState states address).currentNonce,
            pendingNonce := some (max v (getNonceState states address).currentNonce + 1),
            locked := true }) := by
  simp only [isNonceLocked] at h
  simp [getNextNonce, h]

/-- C2: if a reservation is outstanding (`locked = true`) for an address,
`getNextNonce` fails immediately with the transaction-in-progress error and
leaves the nonce states unchanged; a fresh reservation locks the address so
that an overlapping second call fails, and `releaseNonce` unlocks it. -/
theorem getNextNonce_locked_fails (states : NonceMap) (address : String)
    (fetchResult : Except String Int) (v : Int) (b : Bool) :
    (isNonceLocked states address = true →
      getNextNonce states address fetchResult = (Except.error inProgressMessage, states)) ∧
    (isNonceLocked states address = false →
      isNonceLocked (getNextNonce states address (Except.ok v)).2 address = true ∧
      (getNextNonce (getNextNonce states address (Except.ok v)).2 address fetchResult).1 =
        Except.error inProgressMessage) ∧
    isNonceLocked (releaseNonce states address b) address = false := by
  refine ⟨fun h => getNextNonce_of_locked states address fetchResult h, ?_, ?_⟩
  · intro h
    have hlocked : isNonceLocked (getNextNonce states address (Except.ok v)).2 address = true := by
      rw [getNextNonce_of_unlocked_ok states address v h]
      simp [isNonceLocked, getNonceState, jsMapGet_jsMapSet_self]
    exact ⟨hlocked, by rw [getNextNonce_of_locked _ _ _ hlocked]⟩
  · cases hs : jsMapGet states address with
    | none =>
        simp only [releaseNonce, hs]
        simp [isNonceLocked, getNonceState, hs, defaultNonceState]
    | some st =>
        simp only [releaseNonce, hs]
        simp [isNonceLocked, getNonceState, jsMapGet_jsMapSet_self]

def demoLockedStates : NonceMap :=
  [("a", { currentNonce := 3, pendingNonce := some 4, locked := true })]

/-- Witness for C2: with an outstanding reservation the second reserve call
fails and changes nothing, and releasing clears the lock. -/
theorem getNextNonce_locked_fails_witness :
    getNextNonce demoLockedStates "a" (Except.ok 7) =
      (Except.error inProgressMessage, demoLockedStates) ∧
    isNonceLocked (releaseNonce demoLockedStates "a" true) "a" = false := by
  have h := getNextNonce_locked_fails demoLockedStates "a" (Except.ok 7) 7 true
  exact ⟨h.1 (by decide), h.2.2⟩

/-! ## C3: reserve computes `max(remote, tracked) + 1`; commit advances -/

/-- C3: from an unlocked state, `getNextNonce` with a successful remote fetch
returns `max(remoteNonce, currentNonce) + 1`, records it as the pending nonce
of a locked (`Reserved`) state; `releaseNonce(addr, true)` advances the
tracked nonce to the reserved value and returns to idle, so the next
reservation bases itself on at least the previously reserved value. -/
theorem getNextNonce_reserve_release (states : NonceMap) (address : String)
    (remote remote₂ : Int) (h : isNonceLocked states address = false) :
    (getNextNonce states address (Except.ok remote)).1 =
      Except.ok (max remote (getNonceState states address).currentNonce + 1) ∧
    getNonceState (getNextNonce states address (Except.ok remote)).2 address =
      { currentNonce := max remote (getNonceState states address).currentNonce,
        pendingNonce := some (max remote (getNonceState states address).currentNonce + 1),
        locked := true } ∧
    getNonceState
        (releaseNonce (getNextNonce states address (Except.ok remote)).2 address true) address =
      { currentNonce := max remote (getNonceState states address).currentNonce + 1,
        pendingNonce := none, locked := false } ∧
    (getNextNonce
        (releaseNonce (getNextNonce states address (Except.ok remote)).2 address true)
        address (Except.ok remote₂)).1 =
      Except.ok (max remote₂ (max remote (getNonceState states address).currentNonce + 1) + 1) := by
  have hstep := getNextNonce_of_unlocked_ok states address remote h
  have hmid : getNonceState (getNextNonce states address (Except.ok remote)).2 address =
      { currentNonce := max remote (getNonceState states address).currentNonce,
        pendingNonce := some (max remote (getNonceState states address).currentNonce + 1),
        locked := true } := by
    rw [hstep]; simp [getNonceState, jsMapGet_jsMapSet_self]
  have hget : jsMapGet (getNextNonce states address (Except.ok remote)).2 address =
      some { currentNonce := max remote (getNonceState states address).currentNonce,
             pendingNonce := some (max remote (getNonceState states address).currentNonce + 1),
             locked := true } := by
    rw [hstep]; exact jsMapGet_jsMapSet_self _ _ _
  have hrel : releaseNonce (getNextNonce states address (Except.ok remote)).2 address true =
      jsMapSet (getNextNonce states address (Except.ok remote)).2 address
        { currentNonce := max remote (getNonceState states address).currentNonce + 1,
          pendingNonce := none, locked := false } := by
    simp [releaseNonce, hget]
  have hreleased : getNonceState
      (releaseNonce (getNextNonce states address (Except.ok remote)).2 address true) address =
      { currentNonce := max remote (getNonceState states address).currentNonce + 1,
        pendingNonce := none, locked := false } := by
    rw [hrel]; simp [getNonceState, jsMapGet_jsMapSet_self]
  have hunlocked : isNonceLocked
      (releaseNonce (getNextNonce states address (Except.ok remote)).2 address true) address
      = false := by
    simp [isNonceLocked, hreleased]
  refine ⟨by rw [hstep], hmid, hreleased, ?_⟩
  rw [getNextNonce_of_unlocked_ok _ _ _ hunlocked, hreleased]

/-- Witness for C3 from the empty nonce map (tracked nonce starts at `-1`). -/
theorem getNextNonce_reserve_release_witness :
    (getNextNonce ([] : NonceMap) "a" (Except.ok 5)).1 = Except.ok 6 ∧
    getNonceState (getNextNonce ([] : NonceMap) "a" (Except.ok 5)).2 "a" =
      { currentNonce := 5, pendingNonce := some 6, locked := true } ∧
    getNonceState (releaseNonce (getNextNonce ([] : NonceMap) "a" (Except.ok 5)).2 "a" true) "a" =
      { currentNonce := 6, pendingNonce := none, locked := false } ∧
    (getNextNonce (releaseNonce (getNextNonce ([] : NonceMap) "a" (Except.ok 5)).2 "a" true)
        "a" (Except.ok 2)).1 = Except.ok 7 :=
  getNextNonce_reserve_release [] "a" 5 2 (by decide)

/-! ## C8: lock clears only session-side state, never the vault -/

theorem decryptedCacheKey_ne_sessionKey (a : String) :
    decryptedCacheKey a ≠ SESSION_KEY := by
  intro e
  have hlen := congrArg String.length e
  have h₀ : ("octra_wallet_decrypted_" : String).length = 23 := by decide
  have h₂ : SESSION_KEY.length = 20 := by decide
  rw [decryptedCacheKey, String.length_append, h₀, h₂] at hlen
  omega

/-- C8: `handleLock` leaves `localStorage` (hence the persisted
`EncryptedVault`) untouched; it removes exactly the unlock session, the
decrypted-key cache entry of the locked address and that address's nonce
state, preserving every other key. -/
theorem handleLock_clears_only_session_state (w : WalletData) (st : BrowserState)
    (k : String) (a : String) :
    (handleLock (some w) st).localStore = st.localStore ∧
    jsMapGet (handleLock (some w) st).sessionStore SESSION_KEY = none ∧
    jsMapGet (handleLock (some w) st).sessionStore (decryptedCacheKey w.addr) = none ∧
    jsMapGet (handleLock (some w) st).nonceStates w.addr = none ∧
    (k ≠ SESSION_KEY → k ≠ decryptedCacheKey w.addr →
      jsMapGet (handleLock (some w) st).sessionStore k = jsMapGet st.sessionStore k) ∧
    (a ≠ w.addr → jsMapGet (handleLock (some w) st).nonceStates a = jsMapGet st.nonceStates a) := by
  refine ⟨rfl, ?_, ?_, ?_, ?_, ?_⟩
  · exact jsMapGet_removeStorageItem_self _ _
  · show jsMapGet (removeStorageItem
      (removeStorageItem st.sessionStore (decryptedCacheKey w.addr)) SESSION_KEY)
      (decryptedCacheKey w.addr) = none
    rw [jsMapGet_removeStorageItem_ne _ _ _ (decryptedCacheKey_ne_sessionKey w.addr)]
    exact jsMapGet_removeStorageItem_self _ _
  · exact jsMapGet_eraseKey_self _ _
  · intro h₁ h₂
    show jsMapGet (removeStorageItem
      (removeStorageItem st.sessionStore (decryptedCacheKey w.addr)) SESSION_KEY) k = _
    rw [jsMapGet_removeStorageItem_ne _ _ _ h₁, jsMapGet_removeStorageItem_ne _ _ _ h₂]
  · intro h
    exact jsMapGet_eraseKey_ne _ _ _ h

def demoWallet : WalletData := { priv := "p", addr := "a", rpc := "r" }

def demoBrowserState : BrowserState :=
  { localStore := [(WALLET_KEY, "vault-ciphertext"), (getStorageKey "a", "txs")]
    sessionStore := [(SESSION_KEY, "sess"), (decryptedCacheKey "a", "key"), ("other", "x")]
    nonceStates := [("a", { currentNonce := 1, pendingNonce := none, locked := false }),
                    ("b", { currentNonce := 2, pendingNonce := none, locked := false })] }

/-- Witness for C8 at a concrete browser state: the vault and the unrelated
session/nonce entries survive the lock. -/
theorem handleLock_clears_only_session_state_witness :
    (handleLock (some demoWallet) demoBrowserState).localStore = demoBrowserState.localStore ∧
    jsMapGet (handleLock (some demoWallet) demoBrowserState).sessionStore "other" =
      jsMapGet demoBrowserState.sessionStore "other" ∧
    jsMapGet (handleLock (some demoWallet) demoBrowserState).nonceStates "b" =
      jsMapGet demoBrowserState.nonceStates "b" := by
  have h := handleLock_clears_only_session_state demoWallet demoBrowserState "other" "b"
  exact ⟨h.1, h.2.2.2.2.1 (by decide) (by decide), h.2.2.2.2.2 (by decide)⟩

/-! ## C4: `amountToMicroOCT` is exact decimal-to-minor-units conversion -/

/-- The fractional part the code extracts from a trimmed amount string. -/
def fracPart (s : String) : String :=
  (((splitOnChar '.' (jsTrim s).data).map String.mk).getD 1 "")

/-- The whole part the code extracts from a trimmed amount string. -/
def wholePart (s : String) : String :=
  (((splitOnChar '.' (jsTrim s).data).map String.mk).headD "")

/-- C4: `amountToMicroOCT` converts by exact integer arithmetic
`whole * 10^6 + decimals padded to 6 digits`, accepting only non-negative
decimals with at most 6 fractional digits: the three cited examples hold,
any input whose trimmed form starts with `-` or has more than 6 fractional
digits fails, and every accepted input yields exactly the padded integer
value. -/
theorem amountToMicroOCT_spec :
    amountToMicroOCT "1000.5" = Except.ok "1000500000" ∧
    amountToMicroOCT "0.0000001" =
      Except.error "Amount cannot have more than 6 decimal places" ∧
    amountToMicroOCT "-1" = Except.error "Amount cannot be negative" ∧
    (∀ s, (jsTrim s).data.head? = some '-' → ∃ e, amountToMicroOCT s = Except.error e) ∧
    (∀ s, (fracPart s).length > 6 → ∃ e, amountToMicroOCT s = Except.error e) ∧
    (∀ s r, amountToMicroOCT s = Except.ok r →
      r = toString (digitsToNat (wholePart s) * 1000000 +
            digitsToNat (slice6 (padEnd6Zeros (fracPart s))))) := by
  refine ⟨by decide, by decide, by decide, ?_, ?_, ?_⟩
  · intro s hneg
    simp only [amountToMicroOCT]
    split_ifs <;> exact ⟨_, rfl⟩
  · intro s hfrac
    have hfrac' : 6 <
        (((splitOnChar '.' (jsTrim s).data).map String.mk).getD 1 "").length := by
      simpa [fracPart] using hfrac
    simp only [amountToMicroOCT]
    split_ifs <;> exact ⟨_, rfl⟩
  · intro s r hok
    simp only [amountToMicroOCT] at hok
    split_ifs at hok <;> cases hok
    rfl

/-- Witness for C4's conditional parts at concrete inputs. -/
theorem amountToMicroOCT_spec_witness :
    (∃ e, amountToMicroOCT " -3" = Except.error e) ∧
    (∃ e, amountToMicroOCT "1.1234567" = Except.error e) ∧
    "2250000" = toString (digitsToNat (wholePart " 2.25 ") * 1000000 +
      digitsToNat (slice6 (padEnd6Zeros (fracPart " 2.25 ")))) :=
  ⟨amountToMicroOCT_spec.2.2.2.1 " -3" (by decide),
   amountToMicroOCT_spec.2.2.2.2.1 "1.1234567" (by decide),
   amountToMicroOCT_spec.2.2.2.2.2 " 2.25 " "2250000" (by decide)⟩

/-! ## C6: the per-address cache is capped at 50, sorted by timestamp desc -/

/-- Transactions used for the 60-upsert scenario. -/
def capTx (i : Nat) : StoredTransaction :=
  { hash := "h" ++ toString i, from_ := "s", to_ := "r", amount := "1",
    timestamp := Int.ofNat i, nonce := Int.ofNat i, priority := some "normal",
    epoch := none, status := some TxStatus.pending, createdAt := none,
    lastCheckedAt := none }

/-- Result of upserting 60 distinct transactions into an empty store. -/
def upsert60 : List StoredTransaction :=
  ((List.range 60).foldl
    (fun acc i => upsertTransaction acc.2 "addr" (capTx i) 5)
    ([], ([] : TxStorage))).1

theorem loadTransactions_saveTransactions_of_ne_nil (storage : TxStorage)
    (address : String) (txs : List StoredTransaction) (h : txs ≠ []) :
    loadTransactions (saveTransactions storage address txs) address = txs := by
  have hcond : ¬ (txs.length = 0 ∧ (loadTransactions storage address).length > 0) :=
    fun hc => h (List.length_eq_zero.mp hc.1)
  rw [saveTransactions, if_neg hcond, loadTransactions, jsMapGet_jsMapSet_self]

theorem upsertedList_length_pos (storage : TxStorage) (address : String)
    (tx : StoredTransaction) (now : Int) :
    0 < (upsertedList storage address tx now).length := by
  rcases hidx : (loadTransactions storage address).findIdx?
      (fun t => t.hash = (normalizeTx tx).hash) with _ | i
  · simp [upsertedList, hidx]
  · rcases hex : loadTransactions storage address with _ | ⟨e, es⟩
    · rw [hex] at hidx
      simp [List.findIdx?] at hidx
    · simp only [upsertedList]
      rw [hidx]
      simp [hex]

set_option maxRecDepth 4000 in
/-- C6: after any upsert the stored list is sorted by timestamp descending
and has at most 50 entries (and is exactly what gets persisted); upserting 60
distinct transactions leaves exactly 50, sorted by timestamp descending. -/
theorem upsertTransaction_cap_sorted (storage : TxStorage) (address : String)
    (tx : StoredTransaction) (now : Int) :
    (upsertTransaction storage address tx now).1.Pairwise tsLE ∧
    (upsertTransaction storage address tx now).1.length ≤ 50 ∧
    loadTransactions (upsertTransaction storage address tx now).2 address =
      (upsertTransaction storage address tx now).1 ∧
    (upsert60.length = 50 ∧ upsert60.Pairwise tsLE) := by
  refine ⟨?_, ?_, ?_, by decide, by decide⟩
  · exact List.Pairwise.sublist (List.take_sublist _ _)
      (List.sorted_insertionSort tsLE _)
  · simp [upsertTransaction, List.length_take]
  · have hne : (upsertTransaction storage address tx now).1 ≠ [] := by
      have hpos := upsertedList_length_pos storage address tx now
      intro hempty
      have h0 := congrArg List.length hempty
      simp only [upsertTransaction, List.length_take, List.length_insertionSort,
        List.length_nil] at h0
      omega
    exact loadTransactions_saveTransactions_of_ne_nil storage address _ hne

/-! ## Stable-sort decomposition machinery

`insertionSort tsLE` of a concatenation is the left-biased merge of the
two sorted halves; truncation of a merge cuts both halves.  These lemmas
drive the reconciliation proofs below. -/

/-- Left-biased merge of two lists by descending timestamp (ties take the
left element first), matching the stable sort's treatment of `l ++ r`. -/
def mergeDesc : List StoredTransaction → List StoredTransaction → List StoredTransaction
  | [], r => r
  | l, [] => l
  | a :: l, b :: r =>
      if tsLE a b then a :: mergeDesc l (b :: r) else b :: mergeDesc (a :: l) r
termination_by l r => l.length + r.length

theorem mergeDesc_nil_left (r : List StoredTransaction) : mergeDesc [] r = r := by
  simp [mergeDesc]

theorem mergeDesc_nil_right (l : List StoredTransaction) : mergeDesc l [] = l := by
  cases l <;> simp [mergeDesc]

theorem mergeDesc_cons_cons (a b : StoredTransaction)
    (l r : List StoredTransaction) :
    mergeDesc (a :: l) (b :: r) =
      if tsLE a b then a :: mergeDesc l (b :: r) else b :: mergeDesc (a :: l) r := by
  simp [mergeDesc]

theorem orderedInsert_cons (a b : StoredTransaction) (l : List StoredTransaction) :
    (b :: l).orderedInsert tsLE a =
      if tsLE a b then a :: b :: l else b :: l.orderedInsert tsLE a := rfl

theorem mergeDesc_singleton_left (a : StoredTransaction) (t : List StoredTransaction) :
    mergeDesc [a] t = t.orderedInsert tsLE a := by
  induction t with
  | nil => simp [mergeDesc]
  | cons y t' ih =>
    rw [mergeDesc_cons_cons, orderedInsert_cons]
    by_cases h : tsLE a y
    · rw [if_pos h, if_pos h, mergeDesc_nil_left]
    · rw [if_neg h, if_neg h, ih]

theorem orderedInsert_mergeDesc (a : StoredTransaction) :
    ∀ (t s : List StoredTransaction),
      (mergeDesc s t).orderedInsert tsLE a = mergeDesc (s.orderedInsert tsLE a) t := by
  intro t
  induction t with
  | nil =>
    intro s
    rw [mergeDesc_nil_right, mergeDesc_nil_right]
  | cons y t' iht =>
    intro s
    induction s with
    | nil =>
      rw [mergeDesc_nil_left, List.orderedInsert_nil, mergeDesc_singleton_left]
    | cons x s' ihs =>
      by_cases hxy : tsLE x y
      · rw [mergeDesc_cons_cons, if_pos hxy]
        by_cases hax : tsLE a x
        · have hay : tsLE a y := by
            simp only [tsLE] at hxy hax ⊢
            omega
          rw [orderedInsert_cons, if_pos hax, orderedInsert_cons, if_pos hax,
            mergeDesc_cons_cons, if_pos hay, mergeDesc_cons_cons, if_pos hxy]
        · rw [orderedInsert_cons, if_neg hax, orderedInsert_cons, if_neg hax, ihs,
            mergeDesc_cons_cons, if_pos hxy]
      · rw [mergeDesc_cons_cons, if_neg hxy]
        by_cases hay : tsLE a y
        · have hax : tsLE a x := by
            simp only [tsLE] at hxy hay ⊢
            omega
          rw [orderedInsert_cons, if_pos hay, orderedInsert_cons, if_pos hax,
            mergeDesc_cons_cons, if_pos hay, mergeDesc_cons_cons, if_neg hxy]
        · rw [orderedInsert_cons, if_neg hay, iht (x :: s')]
          by_cases hax : tsLE a x
          · rw [orderedInsert_cons, if_pos hax, mergeDesc_cons_cons, if_neg hay]
          · rw [orderedInsert_cons, if_neg hax, mergeDesc_cons_cons, if_neg hxy]

/-- The stable sort splits over concatenation as a left-biased merge. -/
theorem insertionSort_append (A B : List StoredTransaction) :
    (A ++ B).insertionSort tsLE =
      mergeDesc (A.insertionSort tsLE) (B.insertionSort tsLE) := by
  induction A with
  | nil => rw [List.nil_append, List.insertionSort, mergeDesc_nil_left]
  | cons a A ih =>
    rw [List.cons_append, List.insertionSort, List.insertionSort, ih,
      orderedInsert_mergeDesc]

theorem mem_mergeDesc {x : StoredTransaction} :
    ∀ {A B : List StoredTransaction}, x ∈ mergeDesc A B ↔ x ∈ A ∨ x ∈ B := by
  intro A
  induction A with
  | nil =>
    intro B
    simp [mergeDesc_nil_left]
  | cons a A iha =>
    intro B
    induction B with
    | nil => simp [mergeDesc_nil_right]
    | cons b B ihb =>
      rw [mergeDesc_cons_cons]
      by_cases h : tsLE a b
      · rw [if_pos h]
        simp only [List.mem_cons, iha]
        tauto
      · rw [if_neg h]
        simp only [List.mem_cons] at ihb ⊢
        rw [ihb]
        tauto

theorem length_mergeDesc :
    ∀ (A B : List StoredTransaction), (mergeDesc A B).length = A.length + B.length := by
  intro A
  induction A with
  | nil =>
    intro B
    simp [mergeDesc_nil_left]
  | cons a A iha =>
    intro B
    induction B with
    | nil => simp [mergeDesc_nil_right]
    | cons b B ihb =>
      rw [mergeDesc_cons_cons]
      by_cases h : tsLE a b
      · rw [if_pos h]
        simp only [List.length_cons, iha]
        omega
      · rw [if_neg h]
        simp only [List.length_cons] at ihb ⊢
        omega

theorem sorted_cons_get_le (a : StoredTransaction) (A : List StoredTransaction)
    (h : (a :: A).Pairwise tsLE) (i : Fin (a :: A).length) :
    ((a :: A).get i).timestamp ≤ a.timestamp := by
  rcases i with ⟨i, hi⟩
  cases i with
  | zero => exact le_refl _
  | succ n =>
    have hmem : A.get ⟨n, by simpa using Nat.lt_of_succ_lt_succ hi⟩ ∈ A := List.get_mem _ _ _
    exact (List.pairwise_cons.mp h).1 _ hmem

/-- Truncating a left-biased merge to `k` elements truncates the two halves
at a cut `i + j = min k (|A| + |B|)`; every right-half element that made the
cut beats the first left-half element that did not. -/
theorem mergeDesc_cut (k : Nat) :
    ∀ (A B : List StoredTransaction), A.Pairwise tsLE →
    ∃ i j, i ≤ A.length ∧ j ≤ B.length ∧ i + j = min k (A.length + B.length) ∧
      (mergeDesc A B).take k = mergeDesc (A.take i) (B.take j) ∧
      (∀ hi : i < A.length, ∀ b ∈ B.take j,
        (A.get ⟨i, hi⟩).timestamp < b.timestamp) := by
  induction k with
  | zero =>
    intro A B _
    exact ⟨0, 0, Nat.zero_le _, Nat.zero_le _, by simp, by simp [mergeDesc_nil_left],
      by simp⟩
  | succ k ih =>
    intro A B hA
    cases A with
    | nil =>
      refine ⟨0, min (k + 1) B.length, Nat.zero_le _, Nat.min_le_right _ _, by simp, ?_,
        by simp⟩
      rw [mergeDesc_nil_left, List.take_zero, mergeDesc_nil_left]
      by_cases hb : B.length ≤ k + 1
      · rw [Nat.min_eq_right hb, List.take_length, List.take_of_length_le hb]
      · rw [Nat.min_eq_left (by omega)]
    | cons a A' =>
      cases B with
      | nil =>
        refine ⟨min (k + 1) (a :: A').length, 0, Nat.min_le_right _ _, Nat.zero_le _,
          by simp, ?_, ?_⟩
        · rw [List.take_zero, mergeDesc_nil_right, mergeDesc_nil_right]
          by_cases ha : (a :: A').length ≤ k + 1
          · rw [Nat.min_eq_right ha, List.take_length, List.take_of_length_le ha]
          · rw [Nat.min_eq_left (by omega)]
        · intro hi b hb
          simp at hb
      | cons b B' =>
        by_cases hab : tsLE a b
        · obtain ⟨i', j', hi'le, hj'le, hsum, htake, hlt⟩ := ih A' (b :: B') hA.of_cons
          refine ⟨i' + 1, j', by simpa using Nat.succ_le_succ hi'le, hj'le, ?_, ?_, ?_⟩
          · simp only [List.length_cons] at hsum ⊢
            omega
          · rw [mergeDesc_cons_cons, if_pos hab, List.take_succ_cons, htake,
              List.take_succ_cons]
            cases j' with
            | zero => rw [List.take_zero, mergeDesc_nil_right, mergeDesc_nil_right]
            | succ j'' =>
              rw [List.take_succ_cons, mergeDesc_cons_cons, if_pos hab,
                ← List.take_succ_cons]
          · intro hi b'' hb''
            have hi' : i' < A'.length := by simpa using Nat.lt_of_succ_lt_succ hi
            exact hlt hi' b'' hb''
        · obtain ⟨i', j', hi'le, hj'le, hsum, htake, hlt⟩ := ih (a :: A') B' hA
          refine ⟨i', j' + 1, hi'le, by simpa using Nat.succ_le_succ hj'le, ?_, ?_, ?_⟩
          · simp only [List.length_cons] at hsum ⊢
            omega
          · rw [mergeDesc_cons_cons, if_neg hab, List.take_succ_cons, htake,
              List.take_succ_cons]
            cases i' with
            | zero => rw [List.take_zero, mergeDesc_nil_left, mergeDesc_nil_left]
            | succ i'' =>
              rw [List.take_succ_cons, mergeDesc_cons_cons, if_neg hab,
                ← List.take_succ_cons]
          · intro hi b'' hb''
            rcases List.mem_cons.mp (by simpa [List.take_succ_cons] using hb'') with hb1 | hb2
            · subst hb1
              have hle := sorted_cons_get_le a A' hA ⟨i', hi⟩
              simp only [tsLE, not_le] at hab
              omega
            · exact hlt hi b'' hb2

theorem mergeDesc_all_lt (G C : List StoredTransaction)
    (h : ∀ g ∈ G, ∀ c ∈ C, g.timestamp < c.timestamp) :
    mergeDesc G C = C ++ G := by
  induction G generalizing C with
  | nil => rw [mergeDesc_nil_left, List.append_nil]
  | cons g G' ihg =>
    induction C with
    | nil => rw [mergeDesc_nil_right, List.nil_append]
    | cons c C' ihc =>
      have hgc : ¬ tsLE g c := by
        have := h g (List.mem_cons_self _ _) c (List.mem_cons_self _ _)
        simp only [tsLE, not_le]
        omega
      rw [mergeDesc_cons_cons, if_neg hgc, List.cons_append]
      rw [ihc (fun g hg c hc => h g hg c (List.mem_cons_of_mem _ hc))]

/-- Ghost elements that lose every timestamp comparison against the right
half can be split off the left half of a merge. -/
theorem mergeDesc_append_ghosts (B : List StoredTransaction) :
    ∀ (T G : List StoredTransaction),
      (∀ g ∈ G, ∀ b ∈ B, g.timestamp < b.timestamp) →
      mergeDesc (T ++ G) B = mergeDesc T B ++ G := by
  induction B with
  | nil =>
    intro T G _
    rw [mergeDesc_nil_right, mergeDesc_nil_right]
  | cons b B' ihb =>
    intro T G hG
    induction T with
    | nil =>
      rw [List.nil_append, mergeDesc_nil_left]
      exact mergeDesc_all_lt G (b :: B') hG
    | cons t T' iht =>
      rw [List.cons_append, mergeDesc_cons_cons]
      by_cases htb : tsLE t b
      · rw [if_pos htb, iht, mergeDesc_cons_cons, if_pos htb, List.cons_append]
      · rw [if_neg htb, mergeDesc_cons_cons, if_neg htb, List.cons_append]
        exact congrArg (b :: ·)
          (ihb (t :: T') G (fun g hg bb hbb => hG g hg bb (List.mem_cons_of_mem _ hbb)))

theorem filter_mergeDesc (pb : StoredTransaction → Bool) :
    ∀ (A B : List StoredTransaction), (∀ a ∈ A, pb a = true) → (∀ b ∈ B, pb b = false) →
      (mergeDesc A B).filter (fun x => !pb x) = B := by
  intro A
  induction A with
  | nil =>
    intro B _ hB
    rw [mergeDesc_nil_left]
    induction B with
    | nil => rfl
    | cons b B' ihb =>
      rw [List.filter_cons]
      have := hB b (List.mem_cons_self _ _)
      simp only [this, Bool.not_false, if_pos]
      rw [ihb (fun b hb => hB b (List.mem_cons_of_mem _ hb))]
  | cons a A' iha =>
    intro B hA hB
    induction B with
    | nil =>
      rw [mergeDesc_nil_right]
      rw [List.filter_eq_nil_iff]
      intro x hx
      simp [hA x hx]
    | cons b B' ihb =>
      rw [mergeDesc_cons_cons]
      by_cases hab : tsLE a b
      · rw [if_pos hab, List.filter_cons]
        have := hA a (List.mem_cons_self _ _)
        simp only [this, Bool.not_true, if_neg]
        exact iha (b :: B') (fun x hx => hA x (List.mem_cons_of_mem _ hx)) hB
      · rw [if_neg hab, List.filter_cons]
        have := hB b (List.mem_cons_self _ _)
        simp only [this, Bool.not_false, if_pos]
        rw [ihb (fun x hx => hB x (List.mem_cons_of_mem _ hx))]

/-! ### Pointwise-aligned lists sort identically -/

theorem forall₂_orderedInsert {R : StoredTransaction → StoredTransaction → Prop}
    (hts : ∀ x y, R x y → y.timestamp = x.timestamp)
    {a a' : StoredTransaction} (ha : R a a') :
    ∀ {l l' : List StoredTransaction}, List.Forall₂ R l l' →
      List.Forall₂ R (l.orderedInsert tsLE a) (l'.orderedInsert tsLE a') := by
  intro l l' h
  induction h with
  | nil => exact List.Forall₂.cons ha List.Forall₂.nil
  | cons hxy hrest ih =>
    rename_i x x' xs xs'
    rw [orderedInsert_cons, orderedInsert_cons]
    have hts₁ := hts _ _ hxy
    have hts₂ := hts _ _ ha
    by_cases hax : tsLE a x
    · have hax' : tsLE a' x' := by
        simp only [tsLE] at hax ⊢
        omega
      rw [if_pos hax, if_pos hax']
      exact List.Forall₂.cons ha (List.Forall₂.cons hxy hrest)
    · have hax' : ¬ tsLE a' x' := by
        simp only [tsLE] at hax ⊢
        omega
      rw [if_neg hax, if_neg hax']
      exact List.Forall₂.cons hxy ih

theorem forall₂_insertionSort {R : StoredTransaction → StoredTransaction → Prop}
    (hts : ∀ x y, R x y → y.timestamp = x.timestamp) :
    ∀ {l l' : List StoredTransaction}, List.Forall₂ R l l' →
      List.Forall₂ R (l.insertionSort tsLE) (l'.insertionSort tsLE) := by
  intro l l' h
  induction h with
  | nil => exact List.Forall₂.nil
  | cons ha hrest ih =>
    rw [List.insertionSort, List.insertionSort]
    exact forall₂_orderedInsert hts ha ih

theorem forall₂_mem_right {R : StoredTransaction → StoredTransaction → Prop} :
    ∀ {l l' : List StoredTransaction}, List.Forall₂ R l l' →
      ∀ y ∈ l', ∃ x ∈ l, R x y := by
  intro l l' h
  induction h with
  | nil => intro y hy; cases hy
  | cons ha hrest ih =>
    intro y hy
    rcases List.mem_cons.mp hy with h1 | h2
    · subst h1
      exact ⟨_, List.mem_cons_self _ _, ha⟩
    · obtain ⟨x, hx, hr⟩ := ih y h2
      exact ⟨x, List.mem_cons_of_mem _ hx, hr⟩

theorem forall₂_take_eq {R : StoredTransaction → StoredTransaction → Prop}
    {P : StoredTransaction → Prop}
    (heq : ∀ x y, R x y → P x → y = x) :
    ∀ {l l' : List StoredTransaction}, List.Forall₂ R l l' →
      ∀ i, (∀ x ∈ l.take i, P x) → l'.take i = l.take i := by
  intro l l' h
  induction h with
  | nil => intro i _; rfl
  | cons ha hrest ih =>
    intro i hP
    cases i with
    | zero => rfl
    | succ i' =>
      rw [List.take_succ_cons, List.take_succ_cons]
      have hhead := heq _ _ ha (hP _ (by simp))
      rw [hhead, ih i' (fun x hx => hP x (by simp [List.take_succ_cons, hx]))]

theorem forall₂_drop {R : StoredTransaction → StoredTransaction → Prop} :
    ∀ {l l' : List StoredTransaction}, List.Forall₂ R l l' →
      ∀ i, List.Forall₂ R (l.drop i) (l'.drop i) := by
  intro l l' h
  induction h with
  | nil => intro i; simp
  | cons ha hrest ih =>
    intro i
    cases i with
    | zero => exact List.Forall₂.cons ha hrest
    | succ i' => simpa using ih i'

/-! ### Association-map fold characterizations -/

/-- Keys of an association map. -/
def txKeys {α : Type} (m : List (String × α)) : List String :=
  m.map Prod.fst

theorem any_eq_mem_txKeys {α : Type} (m : List (String × α)) (k : String) :
    m.any (fun p => p.1 = k) = true ↔ k ∈ txKeys m := by
  constructor
  · intro h
    rcases List.any_eq_true.mp h with ⟨p, hp, he⟩
    simp only [decide_eq_true_eq] at he
    exact List.mem_map.mpr ⟨p, hp, he⟩
  · intro h
    rcases List.mem_map.mp h with ⟨p, hp, he⟩
    exact List.any_eq_true.mpr ⟨p, hp, by simpa using he⟩

theorem jsMapSet_of_not_mem {α : Type} (m : List (String × α)) (k : String) (v : α)
    (h : k ∉ txKeys m) : jsMapSet m k v = m ++ [(k, v)] := by
  rw [jsMapSet, if_neg]
  intro hany
  exact h ((any_eq_mem_txKeys m k).mp hany)

theorem txKeys_append {α : Type} (m m' : List (String × α)) :
    txKeys (m ++ m') = txKeys m ++ txKeys m' := by
  simp [txKeys]

theorem mem_jsMapSet {α : Type} (m : List (String × α)) (k : String) (v : α)
    (q : String × α) (h : q ∈ jsMapSet m k v) : q ∈ m ∨ q = (k, v) := by
  rw [jsMapSet] at h
  split at h
  · rcases List.mem_map.mp h with ⟨p, hp, he⟩
    by_cases hpk : p.1 = k
    · rw [if_pos hpk] at he
      exact Or.inr he.symm
    · rw [if_neg hpk] at he
      exact Or.inl (he ▸ hp)
  · rcases List.mem_append.mp h with h2 | h2
    · exact Or.inl h2
    · exact Or.inr (by simpa using h2)

theorem mem_foldl_jsMapSet {α β : Type} (key : β → String) (val : β → α) :
    ∀ (L : List β) (m0 : List (String × α)) (q : String × α),
      q ∈ L.foldl (fun m x => jsMapSet m (key x) (val x)) m0 →
      q ∈ m0 ∨ ∃ x ∈ L, q = (key x, val x) := by
  intro L
  induction L with
  | nil =>
    intro m0 q hq
    exact Or.inl hq
  | cons x L ih =>
    intro m0 q hq
    rw [List.foldl_cons] at hq
    rcases ih _ q hq with h1 | ⟨x', hx', he⟩
    · rcases mem_jsMapSet _ _ _ _ h1 with h2 | h2
      · exact Or.inl h2
      · exact Or.inr ⟨x, List.mem_cons_self _ _, h2⟩
    · exact Or.inr ⟨x', List.mem_cons_of_mem _ hx', he⟩

theorem txKeys_jsMapSet_nodup {α : Type} (m : List (String × α)) (k : String) (v : α)
    (h : (txKeys m).Nodup) : (txKeys (jsMapSet m k v)).Nodup := by
  rw [jsMapSet]
  split
  · have : txKeys (m.map (fun p => if p.1 = k then (k, v) else p)) = txKeys m := by
      simp only [txKeys, List.map_map]
      apply List.map_congr_left
      intro p _
      by_cases hp : p.1 = k
      · simp [hp]
      · simp [hp]
    rw [this]
    exact h
  · rename_i hany
    rw [txKeys_append]
    have hk : k ∉ txKeys m := fun hmem => hany ((any_eq_mem_txKeys m k).mpr hmem)
    simp only [txKeys, List.map]
    simp only [txKeys] at h hk
    exact List.Nodup.append h (by simp) (by simp [List.disjoint_right, hk])

theorem txKeys_foldl_jsMapSet_nodup {α β : Type} (key : β → String) (val : β → α) :
    ∀ (L : List β) (m0 : List (String × α)), (txKeys m0).Nodup →
      (txKeys (L.foldl (fun m x => jsMapSet m (key x) (val x)) m0)).Nodup := by
  intro L
  induction L with
  | nil => intro m0 h; exact h
  | cons x L ih =>
    intro m0 h
    exact ih _ (txKeys_jsMapSet_nodup m0 (key x) (val x) h)

theorem length_jsMapSet {α : Type} (m : List (String × α)) (k : String) (v : α) :
    (jsMapSet m k v).length ≤ m.length + 1 := by
  rw [jsMapSet]
  split
  · simp
  · simp

theorem length_foldl_jsMapSet {α β : Type} (key : β → String) (val : β → α) :
    ∀ (L : List β) (m0 : List (String × α)),
      (L.foldl (fun m x => jsMapSet m (key x) (val x)) m0).length ≤ m0.length + L.length := by
  intro L
  induction L with
  | nil => intro m0; simp
  | cons x L ih =>
    intro m0
    calc (List.foldl _ (jsMapSet m0 (key x) (val x)) L).length
        ≤ (jsMapSet m0 (key x) (val x)).length + L.length := ih _
      _ ≤ m0.length + 1 + L.length := by
          have := length_jsMapSet m0 (key x) (val x)
          omega
      _ = m0.length + (x :: L).length := by simp; omega

theorem foldl_jsMapSet_eq_append {α β : Type} (key : β → String) (val : β → α) :
    ∀ (L : List β) (m0 : List (String × α)),
      (∀ x ∈ L, key x ∉ txKeys m0) → (L.map key).Nodup →
      L.foldl (fun m x => jsMapSet m (key x) (val x)) m0 =
        m0 ++ L.map (fun x => (key x, val x)) := by
  intro L
  induction L with
  | nil => intro m0 _ _; simp
  | cons x L ih =>
    intro m0 hdisj hnodup
    rw [List.foldl_cons, jsMapSet_of_not_mem _ _ _ (hdisj x (List.mem_cons_self _ _))]
    have hcons : (key x :: L.map key).Nodup := by simpa using hnodup
    have hx_not : key x ∉ L.map key := (List.nodup_cons.mp hcons).1
    rw [ih (m0 ++ [(key x, val x)]) ?_ (List.nodup_cons.mp hcons).2]
    · simp
    · intro y hy
      rw [txKeys_append]
      simp only [List.mem_append]
      rintro (h1 | h2)
      · exact hdisj y (List.mem_cons_of_mem _ hy) h1
      · simp only [txKeys, List.map_cons, List.map_nil, List.mem_singleton] at h2
        exact hx_not (h2 ▸ List.mem_map_of_mem key hy)

/-! ### Characterization of the second merge pass -/

/-- The stored transactions the second pass of `mergeTransactions` appends,
given the set of hashes already present. -/
def keptStored (now : Int) : List String → List StoredTransaction → List StoredTransaction
  | _, [] => []
  | seen, tx :: rest =>
    if tx.hash ∈ seen then keptStored now seen rest
    else
      match tx.status with
      | some TxStatus.confirmed =>
          { tx with lastCheckedAt := some now } :: keptStored now (seen ++ [tx.hash]) rest
      | some TxStatus.pending => tx :: keptStored now (seen ++ [tx.hash]) rest
      | some TxStatus.failed => tx :: keptStored now (seen ++ [tx.hash]) rest
      | none => keptStored now seen rest

theorem foldl_step2_eq (now : Int) :
    ∀ (S : List StoredTransaction) (m0 : List (String × StoredTransaction)),
      S.foldl (step2 now) m0 =
        m0 ++ (keptStored now (txKeys m0) S).map (fun e => (e.hash, e)) := by
  intro S
  induction S with
  | nil => intro m0; simp [keptStored]
  | cons tx rest ih =>
    intro m0
    rw [List.foldl_cons, keptStored]
    by_cases hmem : tx.hash ∈ txKeys m0
    · rw [if_pos hmem]
      have : step2 now m0 tx = m0 := by
        rw [step2, if_pos ((any_eq_mem_txKeys m0 tx.hash).mpr hmem)]
      rw [this, ih]
    · rw [if_neg hmem]
      have hany : ¬ m0.any (fun p => p.1 = tx.hash) = true :=
        fun h => hmem ((any_eq_mem_txKeys m0 tx.hash).mp h)
      rcases hst : tx.status with _ | st
      · rw [step2, if_neg hany, hst, ih]
      · cases st with
        | confirmed =>
          rw [step2, if_neg hany, hst]
          dsimp only
          rw [jsMapSet_of_not_mem _ _ _ hmem, ih, txKeys_append]
          simp [txKeys]
        | pending =>
          rw [step2, if_neg hany, hst]
          dsimp only
          rw [jsMapSet_of_not_mem _ _ _ hmem, ih, txKeys_append]
          simp [txKeys]
        | failed =>
          rw [step2, if_neg hany, hst]
          dsimp only
          rw [jsMapSet_of_not_mem _ _ _ hmem, ih, txKeys_append]
          simp [txKeys]

theorem mem_keptStored (now : Int) :
    ∀ (S : List StoredTransaction) (seen : List String) (e : StoredTransaction),
      e ∈ keptStored now seen S →
      e.hash ∉ seen ∧ e.status ≠ none ∧
      (e.status = some TxStatus.confirmed → e.lastCheckedAt = some now) ∧
      ∃ s ∈ S, s.hash = e.hash ∧ s.status = e.status := by
  intro S
  induction S with
  | nil =>
    intro seen e he
    simp [keptStored] at he
  | cons tx rest ih =>
    intro seen e he
    rw [keptStored] at he
    by_cases hmem : tx.hash ∈ seen
    · rw [if_pos hmem] at he
      obtain ⟨h1, h2, h3, s, hs, he⟩ := ih seen e he
      exact ⟨h1, h2, h3, s, List.mem_cons_of_mem _ hs, he⟩
    · rw [if_neg hmem] at he
      rcases hst : tx.status with _ | st
      · rw [hst] at he
        obtain ⟨h1, h2, h3, s, hs, he⟩ := ih seen e he
        exact ⟨h1, h2, h3, s, List.mem_cons_of_mem _ hs, he⟩
      · have hseen : ∀ e, e ∈ keptStored now (seen ++ [tx.hash]) rest →
            e.hash ∉ seen ∧ e.status ≠ none ∧
            (e.status = some TxStatus.confirmed → e.lastCheckedAt = some now) ∧
            ∃ s ∈ tx :: rest, s.hash = e.hash ∧ s.status = e.status := by
          intro e he
          obtain ⟨h1, h2, h3, s, hs, he⟩ := ih _ e he
          exact ⟨fun hc => h1 (by simp [hc]), h2, h3, s, List.mem_cons_of_mem _ hs, he⟩
        cases st with
        | confirmed =>
          rw [hst] at he
          rcases List.mem_cons.mp he with h1 | h2
          · subst h1
            exact ⟨hmem, by simp [hst], fun _ => rfl,
              tx, List.mem_cons_self _ _, rfl, by simp [hst]⟩
          · exact hseen e h2
        | pending =>
          rw [hst] at he
          rcases List.mem_cons.mp he with h1 | h2
          · subst h1
            exact ⟨hmem, by simp [hst], by simp [hst],
              e, List.mem_cons_self _ _, rfl, rfl⟩
          · exact hseen e h2
        | failed =>
          rw [hst] at he
          rcases List.mem_cons.mp he with h1 | h2
          · subst h1
            exact ⟨hmem, by simp [hst], by simp [hst],
              e, List.mem_cons_self _ _, rfl, rfl⟩
          · exact hseen e h2

theorem nodup_keptStored_hashes (now : Int) :
    ∀ (S : List StoredTransaction) (seen : List String),
      ((keptStored now seen S).map (fun e => e.hash)).Nodup := by
  intro S
  induction S with
  | nil => intro seen; simp [keptStored]
  | cons tx rest ih =>
    intro seen
    rw [keptStored]
    by_cases hmem : tx.hash ∈ seen
    · rw [if_pos hmem]; exact ih seen
    · rw [if_neg hmem]
      have hnotin : ∀ v : StoredTransaction, v.hash = tx.hash →
          v.hash ∉ (keptStored now (seen ++ [tx.hash]) rest).map (fun e => e.hash) := by
        intro v hv hc
        rcases List.mem_map.mp hc with ⟨e, he, heq⟩
        have := (mem_keptStored now rest _ e he).1
        rw [heq, hv] at this
        exact this (by simp)
      rcases hst : tx.status with _ | st
      · exact ih seen
      · cases st with
        | confirmed =>
          simp only [List.map_cons, List.nodup_cons]
          exact ⟨hnotin _ rfl, ih _⟩
        | pending =>
          simp only [List.map_cons, List.nodup_cons]
          exact ⟨hnotin _ rfl, ih _⟩
        | failed =>
          simp only [List.map_cons, List.nodup_cons]
          exact ⟨hnotin _ rfl, ih _⟩

theorem length_keptStored (now : Int) :
    ∀ (S : List StoredTransaction) (seen : List String),
      (keptStored now seen S).length ≤ S.length := by
  intro S
  induction S with
  | nil => intro seen; simp [keptStored]
  | cons tx rest ih =>
    intro seen
    rw [keptStored]
    by_cases hmem : tx.hash ∈ seen
    · rw [if_pos hmem]
      have := ih seen
      simp only [List.length_cons]
      omega
    · rw [if_neg hmem]
      rcases tx.status with _ | st
      · have := ih seen
        simp only [List.length_cons]
        omega
      · cases st <;>
          · have := ih (seen ++ [tx.hash])
            simp only [List.length_cons]
            omega

theorem setLastChecked_eq_self (e : StoredTransaction) (now : Int)
    (h : e.lastCheckedAt = some now) : { e with lastCheckedAt := some now } = e := by
  cases e
  simp only at h
  simp [h]

theorem mem_keptStored_of_confirmed (now : Int) :
    ∀ (S : List StoredTransaction) (seen : List String) (tx : StoredTransaction),
      (S.map (fun e => e.hash)).Nodup → tx ∈ S →
      tx.status = some TxStatus.confirmed → tx.hash ∉ seen →
      { tx with lastCheckedAt := some now } ∈ keptStored now seen S := by
  intro S
  induction S with
  | nil =>
    intro seen tx _ htx
    cases htx
  | cons s rest ih =>
    intro seen tx hnodup htx hst hseen
    rw [keptStored]
    rcases List.mem_cons.mp htx with h1 | h2
    · subst h1
      rw [if_neg hseen, hst]
      exact List.mem_cons_self _ _
    · simp only [List.map_cons, List.nodup_cons, List.mem_map, not_exists] at hnodup
      have hnodup2 : (rest.map (fun e => e.hash)).Nodup := by
        simpa using hnodup.2
      have hhd : tx.hash ≠ s.hash := fun he => hnodup.1 tx ⟨h2, he⟩
      by_cases hmem : s.hash ∈ seen
      · rw [if_pos hmem]
        exact ih seen tx hnodup2 h2 hst hseen
      · rw [if_neg hmem]
        have hrec := ih (seen ++ [s.hash]) tx hnodup2 h2 hst (by simp [hseen, hhd])
        rcases s.status with _ | st
        · exact ih seen tx hnodup2 h2 hst hseen
        · cases st
          · exact List.mem_cons_of_mem _ hrec
          · exact List.mem_cons_of_mem _ hrec
          · exact List.mem_cons_of_mem _ hrec

theorem keptStored_eq_filter (now : Int) :
    ∀ (L : List StoredTransaction) (seen : List String),
      ((L.map (fun e => e.hash)).Nodup) →
      (∀ e ∈ L, e.status ≠ none ∧
        (e.status = some TxStatus.confirmed → e.lastCheckedAt = some now)) →
      keptStored now seen L = L.filter (fun e => !(decide (e.hash ∈ seen))) := by
  intro L
  induction L with
  | nil => intro seen _ _; simp [keptStored]
  | cons tx rest ih =>
    intro seen hnodup hinv
    have hnodup' : (rest.map (fun e => e.hash)).Nodup :=
      (List.nodup_cons.mp (by simpa using hnodup)).2
    have hhd : tx.hash ∉ rest.map (fun e => e.hash) :=
      (List.nodup_cons.mp (by simpa using hnodup)).1
    have hinv' : ∀ e ∈ rest, e.status ≠ none ∧
        (e.status = some TxStatus.confirmed → e.lastCheckedAt = some now) :=
      fun e he => hinv e (List.mem_cons_of_mem _ he)
    rw [keptStored, List.filter_cons]
    by_cases hmem : tx.hash ∈ seen
    · rw [if_pos hmem, ih seen hnodup' hinv']
      simp [hmem]
    · rw [if_neg hmem]
      have hfilter_ext : rest.filter (fun e => !(decide (e.hash ∈ seen ++ [tx.hash]))) =
          rest.filter (fun e => !(decide (e.hash ∈ seen))) := by
        apply List.filter_congr
        intro e he
        have : e.hash ≠ tx.hash := by
          intro hc
          exact hhd (hc ▸ List.mem_map_of_mem (fun e => e.hash) he)
        simp [this]
      rcases hst : tx.status with _ | st
      · exact absurd hst (hinv tx (List.mem_cons_self _ _)).1
      · cases st with
        | confirmed =>
          have heta := setLastChecked_eq_self tx now
            ((hinv tx (List.mem_cons_self _ _)).2 hst)
          rw [hst] at heta
          dsimp only
          rw [heta, ih _ hnodup' hinv', hfilter_ext]
          simp [hmem]
        | pending =>
          dsimp only
          rw [ih _ hnodup' hinv', hfilter_ext]
          simp [hmem]
        | failed =>
          dsimp only
          rw [ih _ hnodup' hinv', hfilter_ext]
          simp [hmem]

/-! ### API map and first-pass characterization -/

theorem normalizePriority_cases (p : Option String) :
    normalizePriority p = "normal" ∨ normalizePriority p = "express" := by
  rcases p with _ | s
  · exact Or.inl rfl
  · rw [normalizePriority]
    split
    · exact Or.inr rfl
    · exact Or.inl rfl

theorem apiTxMapOf_pairs (api : List TransactionHistory) (now : Int) :
    ∀ q ∈ apiTxMapOf api now, ∃ tx ∈ api, q = (tx.hash, apiEntry now tx) := by
  intro q hq
  rcases mem_foldl_jsMapSet TransactionHistory.hash (apiEntry now) api [] q hq with h | h
  · cases h
  · exact h

theorem nodup_apiTxMapOf (api : List TransactionHistory) (now : Int) :
    (txKeys (apiTxMapOf api now)).Nodup :=
  txKeys_foldl_jsMapSet_nodup TransactionHistory.hash (apiEntry now) api [] (by simp [txKeys])

theorem length_apiTxMapOf (api : List TransactionHistory) (now : Int) :
    (apiTxMapOf api now).length ≤ api.length := by
  have := length_foldl_jsMapSet TransactionHistory.hash (apiEntry now) api []
  simpa using this

theorem txKeys_apiTxMapOf_sub (api : List TransactionHistory) (now : Int) :
    ∀ k ∈ txKeys (apiTxMapOf api now), k ∈ api.map TransactionHistory.hash := by
  intro k hk
  rcases List.mem_map.mp hk with ⟨q, hq, he⟩
  rcases apiTxMapOf_pairs api now q hq with ⟨tx, htx, rfl⟩
  exact he ▸ List.mem_map_of_mem _ htx

theorem jsMapGet_map_pair (L : List StoredTransaction) (k : String) :
    jsMapGet (L.map (fun e => (e.hash, e))) k = L.find? (fun e => e.hash = k) := by
  induction L with
  | nil => rfl
  | cons e L ih =>
    rw [List.map_cons, jsMapGet_cons]
    by_cases he : e.hash = k
    · simp [List.find?, he]
    · rw [if_neg he, List.find?_cons_of_neg _ (by simpa using he)]
      exact ih

theorem storedTxMapOf_eq_map (M : List StoredTransaction)
    (h : (M.map (fun e => e.hash)).Nodup) :
    storedTxMapOf M = M.map (fun e => (e.hash, e)) := by
  have := foldl_jsMapSet_eq_append (fun e : StoredTransaction => e.hash) id M []
    (by simp [txKeys]) h
  simpa [storedTxMapOf] using this

theorem find?_eq_of_mem_nodup (L : List StoredTransaction) (e : StoredTransaction)
    (h : (L.map (fun x => x.hash)).Nodup) (he : e ∈ L) :
    L.find? (fun x => x.hash = e.hash) = some e := by
  induction L with
  | nil => cases he
  | cons x L ih =>
    simp only [List.map_cons, List.nodup_cons, List.mem_map, not_exists] at h
    rcases List.mem_cons.mp he with h1 | h2
    · subst h1
      simp [List.find?]
    · have hne : ¬ x.hash = e.hash := by
        intro hc
        exact h.1 e ⟨h2, hc.symm⟩
      rw [List.find?_cons_of_neg _ (by simpa using hne)]
      exact ih (by simpa using h.2) h2

/-- The list of values the first pass of `mergeTransactions` produces. -/
def blockOne (stored : List StoredTransaction)
    (api : List TransactionHistory) (now : Int) : List StoredTransaction :=
  (apiTxMapOf api now).map
    (fun p => mergeApiEntry p.2 (jsMapGet (storedTxMapOf stored) p.1))

theorem mergedMapOf_eq (stored : List StoredTransaction)
    (api : List TransactionHistory) (now : Int) :
    mergedMapOf stored api now =
      (apiTxMapOf api now).map
        (fun p => (p.1, mergeApiEntry p.2 (jsMapGet (storedTxMapOf stored) p.1))) ++
      (keptStored now (txKeys (apiTxMapOf api now)) stored).map (fun e => (e.hash, e)) := by
  rw [mergedMapOf]
  have h1 : (apiTxMapOf api now).foldl
      (fun m p => jsMapSet m p.1 (mergeApiEntry p.2 (jsMapGet (storedTxMapOf stored) p.1))) [] =
      (apiTxMapOf api now).map
        (fun p => (p.1, mergeApiEntry p.2 (jsMapGet (storedTxMapOf stored) p.1))) := by
    have := foldl_jsMapSet_eq_append (Prod.fst (β := StoredTransaction))
      (fun p => mergeApiEntry p.2 (jsMapGet (storedTxMapOf stored) p.1))
      (apiTxMapOf api now) [] (by simp [txKeys]) (nodup_apiTxMapOf api now)
    simpa using this
  rw [h1, foldl_step2_eq]
  have h2 : txKeys ((apiTxMapOf api now).map
      (fun p => (p.1, mergeApiEntry p.2 (jsMapGet (storedTxMapOf stored) p.1)))) =
      txKeys (apiTxMapOf api now) := by
    simp [txKeys, List.map_map]
  rw [h2]

theorem mergedValues_eq (stored : List StoredTransaction)
    (api : List TransactionHistory) (now : Int) :
    (mergedMapOf stored api now).map Prod.snd =
      blockOne stored api now ++ keptStored now (txKeys (apiTxMapOf api now)) stored := by
  rw [mergedMapOf_eq, List.map_append, List.map_map, List.map_map, blockOne]
  congr 1
  rw [show (Prod.snd ∘ fun e : StoredTransaction => (e.hash, e)) = id from rfl,
    List.map_id]

theorem blockOne_facts (stored : List StoredTransaction)
    (api : List TransactionHistory) (now : Int) :
    ∀ e ∈ blockOne stored api now,
      e.hash ∈ txKeys (apiTxMapOf api now) ∧ e.status = some TxStatus.confirmed ∧
      e.lastCheckedAt = some now := by
  intro e he
  rcases List.mem_map.mp he with ⟨p, hp, rfl⟩
  rcases apiTxMapOf_pairs api now p hp with ⟨tx, _, rfl⟩
  refine ⟨?_, rfl, rfl⟩
  exact List.mem_map.mpr ⟨(tx.hash, apiEntry now tx), hp, rfl⟩

theorem blockOne_hashes (stored : List StoredTransaction)
    (api : List TransactionHistory) (now : Int) :
    (blockOne stored api now).map (fun e => e.hash) = txKeys (apiTxMapOf api now) := by
  rw [blockOne, List.map_map]
  apply List.map_congr_left
  intro p hp
  rcases apiTxMapOf_pairs api now p hp with ⟨tx, _, rfl⟩
  rfl

theorem blockOne_priority (stored : List StoredTransaction)
    (api : List TransactionHistory) (now : Int) :
    ∀ p ∈ apiTxMapOf api now,
      p.2.priority = some "normal" ∨ p.2.priority = some "express" := by
  intro p hp
  rcases apiTxMapOf_pairs api now p hp with ⟨tx, _, rfl⟩
  rcases normalizePriority_cases tx.priority with h | h
  · exact Or.inl (by simp [apiEntry, h])
  · exact Or.inr (by simp [apiEntry, h])

/-- Statuses and freshness of everything in the merged value list. -/
theorem mergedValues_inv (stored : List StoredTransaction)
    (api : List TransactionHistory) (now : Int) :
    ∀ e ∈ (mergedMapOf stored api now).map Prod.snd,
      e.status ≠ none ∧ (e.status = some TxStatus.confirmed → e.lastCheckedAt = some now) := by
  intro e he
  rw [mergedValues_eq] at he
  rcases List.mem_append.mp he with h1 | h2
  · obtain ⟨_, hst, hlc⟩ := blockOne_facts stored api now e h1
    exact ⟨by simp [hst], fun _ => hlc⟩
  · obtain ⟨_, h2', h3', _⟩ := mem_keptStored now stored _ e h2
    exact ⟨h2', h3'⟩

/-- Hashes in the merged value list are distinct. -/
theorem nodup_mergedValues (stored : List StoredTransaction)
    (api : List TransactionHistory) (now : Int) :
    (((mergedMapOf stored api now).map Prod.snd).map (fun e => e.hash)).Nodup := by
  rw [mergedValues_eq, List.map_append, blockOne_hashes]
  refine List.Nodup.append (nodup_apiTxMapOf api now)
    (nodup_keptStored_hashes now stored _) ?_
  intro k hk hk'
  rcases List.mem_map.mp hk' with ⟨e, he, rfl⟩
  exact (mem_keptStored now stored _ e he).1 hk

theorem mem_mergeTransactions (stored : List StoredTransaction)
    (api : List TransactionHistory) (now : Int) (e : StoredTransaction)
    (he : e ∈ mergeTransactions stored api now) :
    e ∈ (mergedMapOf stored api now).map Prod.snd := by
  rw [mergeTransactions] at he
  exact (List.mem_insertionSort tsLE).mp ((List.take_sublist _ _).mem he)

theorem sorted_mergeTransactions (stored : List StoredTransaction)
    (api : List TransactionHistory) (now : Int) :
    (mergeTransactions stored api now).Pairwise tsLE := by
  rw [mergeTransactions]
  exact List.Pairwise.sublist (List.take_sublist _ _) (List.sorted_insertionSort tsLE _)

theorem nodup_mergeTransactions (stored : List StoredTransaction)
    (api : List TransactionHistory) (now : Int) :
    ((mergeTransactions stored api now).map (fun e => e.hash)).Nodup := by
  rw [mergeTransactions]
  have hperm : List.Perm
      ((((mergedMapOf stored api now).map Prod.snd).insertionSort tsLE).map
        (fun e => e.hash))
      (((mergedMapOf stored api now).map Prod.snd).map (fun e => e.hash)) :=
    (List.perm_insertionSort tsLE _).map _
  have hnodup := (hperm.nodup_iff).mpr (nodup_mergedValues stored api now)
  exact hnodup.sublist ((List.take_sublist _ _).map _)

theorem jsIntOr_idem (o : Option Int) (t : Int) :
    jsIntOr (some (jsIntOr o t)) t = jsIntOr o t := by
  rcases o with _ | x
  · show jsIntOr (some t) t = t
    rw [jsIntOr]
    split_ifs <;> rfl
  · show jsIntOr (some (jsIntOr (some x) t)) t = jsIntOr (some x) t
    by_cases hx : x = 0
    · have h1 : jsIntOr (some x) t = t := by rw [jsIntOr, if_pos hx]
      rw [h1, jsIntOr]
      split_ifs <;> rfl
    · have h1 : jsIntOr (some x) t = x := by rw [jsIntOr, if_neg hx]
      rw [h1, jsIntOr, if_neg hx]

theorem mergeApiEntry_idem (a : StoredTransaction) (st : Option StoredTransaction)
    (hpri : a.priority = some "normal" ∨ a.priority = some "express") :
    mergeApiEntry a (some (mergeApiEntry a st)) = mergeApiEntry a st := by
  have hne : ∀ s, a.priority = some s → s ≠ "" := by
    rintro s hs
    rcases hpri with h | h <;> rw [h] at hs <;> cases Option.some.inj hs <;> simp
  rcases hpri with h | h <;>
    simp [mergeApiEntry, jsOptStrOr, jsStrOr, h, jsIntOr_idem]

theorem sorted_get_mono (l : List StoredTransaction) (h : l.Pairwise tsLE)
    {i j : Nat} (hij : i ≤ j) (hj : j < l.length) :
    (l.get ⟨j, hj⟩).timestamp ≤ (l.get ⟨i, Nat.lt_of_le_of_lt hij hj⟩).timestamp := by
  rcases Nat.eq_or_lt_of_le hij with h1 | h2
  · subst h1
    exact le_refl _
  · exact List.pairwise_iff_get.mp h ⟨i, _⟩ ⟨j, _⟩ h2

theorem forall₂_of_map {α : Type} {R : StoredTransaction → StoredTransaction → Prop}
    (L : List α) (f g : α → StoredTransaction) (h : ∀ x ∈ L, R (f x) (g x)) :
    List.Forall₂ R (L.map f) (L.map g) := by
  induction L with
  | nil => exact List.Forall₂.nil
  | cons x L ih =>
    exact List.Forall₂.cons (h x (List.mem_cons_self _ _))
      (ih (fun y hy => h y (List.mem_cons_of_mem _ hy)))

/-- Core restoration lemma: re-merging a truncated merge result `M` against a
pointwise-aligned left half `SX'` (agreeing with `SX` on everything that
survived) and the surviving right half reproduces `M` exactly. -/
theorem take_mergeDesc_restore (SX SX' SY M : List StoredTransaction)
    (hsortX : SX.Pairwise tsLE)
    (hrel : List.Forall₂ (fun x y => y.timestamp = x.timestamp ∧ (x ∈ M → y = x)) SX SX')
    (i j : Nat) (hi : i ≤ SX.length) (hj : j ≤ SY.length)
    (hsum : i + j = min 50 (SX.length + SY.length))
    (hM : M = mergeDesc (SX.take i) (SY.take j))
    (hlt : ∀ hi2 : i < SX.length, ∀ b ∈ SY.take j,
      (SX.get ⟨i, hi2⟩).timestamp < b.timestamp) :
    (mergeDesc SX' (SY.take j)).take 50 = M := by
  have hlen : SX'.length = SX.length := hrel.length_eq.symm
  have htakeeq : SX'.take i = SX.take i :=
    forall₂_take_eq (P := fun x => x ∈ M) (fun x y r hx => r.2 hx) hrel i
      (fun x hx => by rw [hM]; exact mem_mergeDesc.mpr (Or.inl hx))
  have hsplit : SX' = SX.take i ++ SX'.drop i := by
    conv_lhs => rw [← List.take_append_drop i SX']
    rw [htakeeq]
  have hG : ∀ g ∈ SX'.drop i, ∀ b ∈ SY.take j, g.timestamp < b.timestamp := by
    intro g hg b hb
    obtain ⟨x, hx, hr⟩ := forall₂_mem_right (forall₂_drop hrel i) g hg
    rcases List.mem_iff_get.mp hx with ⟨⟨q, hq⟩, hxq⟩
    have hq0 : q < SX.length - i := by simpa [List.length_drop] using hq
    have hq' : i + q < SX.length := by omega
    have hile : i < SX.length := by omega
    have hxval : x = SX.get ⟨i + q, hq'⟩ := by
      rw [← hxq]
      simp [List.get_drop]
    have hmono := sorted_get_mono SX hsortX (Nat.le_add_right i q) hq'
    have hble := hlt hile b hb
    have hts : g.timestamp = x.timestamp := hr.1
    rw [hts, hxval]
    omega
  have hmerge : (mergeDesc SX' (SY.take j)) = M ++ SX'.drop i := by
    conv_lhs => rw [hsplit]
    rw [mergeDesc_append_ghosts (SY.take j) (SX.take i) (SX'.drop i) hG, ← hM]
  rw [hmerge]
  have hMlen : M.length = i + j := by
    rw [hM, length_mergeDesc, List.length_take, List.length_take,
      Nat.min_eq_left hi, Nat.min_eq_left hj]
  rcases Nat.lt_or_ge (SX.length + SY.length) 50 with hcase | hcase
  · have hij : i = SX.length ∧ j = SY.length := by
      rw [Nat.min_eq_right (le_of_lt hcase)] at hsum
      omega
    have hGnil : SX'.drop i = [] :=
      List.drop_eq_nil_of_le (by omega)
    rw [hGnil, List.append_nil]
    exact List.take_of_length_le (by omega)
  · have hij50 : i + j = 50 := by
      rw [Nat.min_eq_left hcase] at hsum
      exact hsum
    rw [List.take_append_of_le_length (by omega)]
    exact List.take_of_length_le (by omega)

/-- C5: merging twice against the same remote result list (at a fixed
current time) equals merging once:
`merge(merge(local, remote), remote) = merge(local, remote)`. -/
theorem mergeTransactions_idem (stored : List StoredTransaction)
    (api : List TransactionHistory) (now : Int) :
    mergeTransactions (mergeTransactions stored api now) api now =
      mergeTransactions stored api now := by
  have hMnodup := nodup_mergeTransactions stored api now
  have hMsorted := sorted_mergeTransactions stored api now
  have hMinv : ∀ e ∈ mergeTransactions stored api now,
      e.status ≠ none ∧ (e.status = some TxStatus.confirmed → e.lastCheckedAt = some now) :=
    fun e he => mergedValues_inv stored api now e (mem_mergeTransactions stored api now e he)
  -- the one-merge result as a truncated merge of the two sorted halves
  have hform : mergeTransactions stored api now =
      (mergeDesc ((blockOne stored api now).insertionSort tsLE)
        ((keptStored now (txKeys (apiTxMapOf api now)) stored).insertionSort tsLE)).take 50 := by
    rw [mergeTransactions, mergedValues_eq, insertionSort_append]
  obtain ⟨i, j, hi, hj, hsum, htake, hlt⟩ :=
    mergeDesc_cut 50 ((blockOne stored api now).insertionSort tsLE)
      ((keptStored now (txKeys (apiTxMapOf api now)) stored).insertionSort tsLE)
      (List.sorted_insertionSort tsLE _)
  have hMcut : mergeTransactions stored api now =
      mergeDesc (((blockOne stored api now).insertionSort tsLE).take i)
        (((keptStored now (txKeys (apiTxMapOf api now)) stored).insertionSort tsLE).take j) :=
    hform.trans htake
  -- the survivors of the stored block are exactly the non-API hashes of M
  have hfilter : (mergeTransactions stored api now).filter
      (fun e => !(decide (e.hash ∈ txKeys (apiTxMapOf api now)))) =
      ((keptStored now (txKeys (apiTxMapOf api now)) stored).insertionSort tsLE).take j := by
    rw [hMcut]
    apply filter_mergeDesc (fun e => decide (e.hash ∈ txKeys (apiTxMapOf api now)))
    · intro a ha
      have ha' : a ∈ blockOne stored api now :=
        (List.mem_insertionSort tsLE).mp ((List.take_sublist _ _).mem ha)
      simpa using (blockOne_facts stored api now a ha').1
    · intro b hb
      have hb' : b ∈ keptStored now (txKeys (apiTxMapOf api now)) stored :=
        (List.mem_insertionSort tsLE).mp ((List.take_sublist _ _).mem hb)
      simpa using (mem_keptStored now stored _ b hb').1
  -- second-pass survivors of the re-merge
  have hkept2 : keptStored now (txKeys (apiTxMapOf api now)) (mergeTransactions stored api now) =
      ((keptStored now (txKeys (apiTxMapOf api now)) stored).insertionSort tsLE).take j := by
    rw [keptStored_eq_filter now _ _ hMnodup hMinv, hfilter]
  -- pointwise alignment of the two API blocks
  have hrelX : List.Forall₂
      (fun x y => y.timestamp = x.timestamp ∧ (x ∈ mergeTransactions stored api now → y = x))
      (blockOne stored api now) (blockOne (mergeTransactions stored api now) api now) := by
    apply forall₂_of_map
    intro p hp
    constructor
    · rfl
    · intro hmem
      rcases apiTxMapOf_pairs api now p hp with ⟨tx, htx, hpe⟩
      have hhash : (mergeApiEntry p.2 (jsMapGet (storedTxMapOf stored) p.1)).hash = p.1 := by
        rw [hpe]
        rfl
      have hfind0 := find?_eq_of_mem_nodup _ _ hMnodup hmem
      rw [hhash] at hfind0
      have hfind : jsMapGet (storedTxMapOf (mergeTransactions stored api now)) p.1 =
          some (mergeApiEntry p.2 (jsMapGet (storedTxMapOf stored) p.1)) := by
        rw [storedTxMapOf_eq_map _ hMnodup, jsMapGet_map_pair]
        exact hfind0
      rw [hfind]
      exact mergeApiEntry_idem p.2 _ (blockOne_priority stored api now p hp)
  have hrelSX := forall₂_insertionSort (fun x y r => r.1) hrelX
  -- the second merge in merge-of-sorted form
  have hform2 : mergeTransactions (mergeTransactions stored api now) api now =
      (mergeDesc ((blockOne (mergeTransactions stored api now) api now).insertionSort tsLE)
        (((keptStored now (txKeys (apiTxMapOf api now)) stored).insertionSort tsLE).take j)).take
        50 := by
    have hsortC : ((((keptStored now (txKeys (apiTxMapOf api now)) stored).insertionSort
        tsLE).take j).insertionSort tsLE) =
        (((keptStored now (txKeys (apiTxMapOf api now)) stored).insertionSort tsLE).take j) :=
      List.Sorted.insertionSort_eq
        (List.Pairwise.sublist (List.take_sublist _ _) (List.sorted_insertionSort tsLE _))
    rw [mergeTransactions, mergedValues_eq, insertionSort_append, hkept2, hsortC]
  rw [hform2]
  exact take_mergeDesc_restore _ _ _ _ (List.sorted_insertionSort tsLE _) hrelSX i j hi hj
    hsum hMcut hlt

/-! ## C10: stored records with unset status are dropped by merge -/

/-- C10: a local record whose `status` field is unset and whose hash is not
among the remote results never appears in the merge output. -/
theorem mergeTransactions_drops_unset_status (stored : List StoredTransaction)
    (api : List TransactionHistory) (now : Int) (tx : StoredTransaction)
    (h1 : tx ∈ stored) (h2 : tx.status = none)
    (h3 : tx.hash ∉ api.map TransactionHistory.hash) :
    tx ∉ mergeTransactions stored api now := by
  intro hmem
  have hinv := mergedValues_inv stored api now tx
    (mem_mergeTransactions stored api now tx hmem)
  exact hinv.1 h2

/-- Transaction with an unset status. -/
def demoNoneTx : StoredTransaction :=
  { hash := "u", from_ := "s", to_ := "r", amount := "1", timestamp := 4,
    nonce := 0, priority := none, epoch := none, status := none,
    createdAt := none, lastCheckedAt := none }

/-- Witness for C10 at a concrete cache. -/
theorem mergeTransactions_drops_unset_status_witness :
    demoNoneTx ∉ mergeTransactions [demoNoneTx] [] 0 :=
  mergeTransactions_drops_unset_status [demoNoneTx] [] 0 demoNoneTx
    (List.mem_singleton.mpr rfl) rfl (by decide)

/-! ## C1: merge preserves confirmed entries absent from the remote set -/

theorem eq_of_mem_nodup_hash (l : List StoredTransaction)
    (h : (l.map (fun e => e.hash)).Nodup) (a b : StoredTransaction)
    (ha : a ∈ l) (hb : b ∈ l) (he : a.hash = b.hash) : a = b := by
  induction l with
  | nil => cases ha
  | cons x l ih =>
    simp only [List.map_cons, List.nodup_cons, List.mem_map, not_exists] at h
    rcases List.mem_cons.mp ha with rfl | ha2
    · rcases List.mem_cons.mp hb with rfl | hb2
      · rfl
      · exact absurd he.symm (fun hc => h.1 b ⟨hb2, hc⟩)
    · rcases List.mem_cons.mp hb with rfl | hb2
      · exact absurd he (fun hc => h.1 a ⟨ha2, hc⟩)
      · exact ih (by simpa using h.2) ha2 hb2

/-- C1 (amended): if the local hashes are distinct and the 50-entry cap is
not hit, every locally `confirmed` record whose hash is absent from the
remote results appears in the merge output with status `confirmed`, and no
output record with that hash has any other status (in particular merge never
regresses it to `pending`). -/
theorem mergeTransactions_preserves_confirmed (stored : List StoredTransaction)
    (api : List TransactionHistory) (now : Int) (tx : StoredTransaction)
    (h1 : tx ∈ stored) (h2 : tx.status = some TxStatus.confirmed)
    (h3 : tx.hash ∉ api.map TransactionHistory.hash)
    (h4 : (stored.map (fun e => e.hash)).Nodup)
    (h5 : stored.length + api.length ≤ 50) :
    (∃ e ∈ mergeTransactions stored api now,
      e.hash = tx.hash ∧ e.status = some TxStatus.confirmed) ∧
    (∀ e ∈ mergeTransactions stored api now,
      e.hash = tx.hash → e.status = some TxStatus.confirmed) := by
  have hAK : tx.hash ∉ txKeys (apiTxMapOf api now) :=
    fun hk => h3 (txKeys_apiTxMapOf_sub api now _ hk)
  constructor
  · have hkept : { tx with lastCheckedAt := some now } ∈
        keptStored now (txKeys (apiTxMapOf api now)) stored :=
      mem_keptStored_of_confirmed now stored _ tx h4 h1 h2 hAK
    have hvals : { tx with lastCheckedAt := some now } ∈
        (mergedMapOf stored api now).map Prod.snd := by
      rw [mergedValues_eq]
      exact List.mem_append.mpr (Or.inr hkept)
    have hlen : (((mergedMapOf stored api now).map Prod.snd).insertionSort tsLE).length ≤ 50 := by
      rw [List.length_insertionSort, mergedValues_eq, List.length_append]
      have hb : (blockOne stored api now).length ≤ api.length := by
        rw [blockOne, List.length_map]
        exact length_apiTxMapOf api now
      have hk := length_keptStored now stored (txKeys (apiTxMapOf api now))
      omega
    refine ⟨{ tx with lastCheckedAt := some now }, ?_, rfl, ?_⟩
    · rw [mergeTransactions, List.take_of_length_le hlen]
      exact (List.mem_insertionSort tsLE).mpr hvals
    · show tx.status = some TxStatus.confirmed
      exact h2
  · intro e he hehash
    have hvals := mem_mergeTransactions stored api now e he
    rw [mergedValues_eq] at hvals
    rcases List.mem_append.mp hvals with hb | hk
    · exact (blockOne_facts stored api now e hb).2.1
    · obtain ⟨_, _, _, s, hs, hsh, hst⟩ := mem_keptStored now stored _ e hk
      have : s = tx := eq_of_mem_nodup_hash stored h4 s tx hs h1 (hsh.trans hehash)
      rw [← hst, this, h2]

/-- Witness for C1's amended statement at the spec's cited instance
(`local = [hash "a" confirmed]`, `remote = []`). -/
theorem mergeTransactions_preserves_confirmed_witness :
    (∃ e ∈ mergeTransactions [demoTx] [] 7,
      e.hash = demoTx.hash ∧ e.status = some TxStatus.confirmed) ∧
    (∀ e ∈ mergeTransactions [demoTx] [] 7,
      e.hash = demoTx.hash → e.status = some TxStatus.confirmed) :=
  mergeTransactions_preserves_confirmed [demoTx] [] 7 demoTx
    (List.mem_singleton.mpr rfl) rfl (by decide) (by decide) (by decide)

/-- 51 distinct confirmed transactions; `confTx 0` has the oldest timestamp. -/
def confTx (n : Nat) : StoredTransaction :=
  { hash := "h" ++ toString n, from_ := "s", to_ := "r", amount := "1",
    timestamp := Int.ofNat n, nonce := 0, priority := some "normal",
    epoch := none, status := some TxStatus.confirmed, createdAt := none,
    lastCheckedAt := none }

def conf51 : List StoredTransaction := (List.range 51).map confTx

/-- Duplicate-hash pair: a pending record ahead of a confirmed one. -/
def dupPending : StoredTransaction :=
  { hash := "d", from_ := "s", to_ := "r", amount := "1", timestamp := 5,
    nonce := 0, priority := some "normal", epoch := none,
    status := some TxStatus.pending, createdAt := none, lastCheckedAt := none }

def dupConfirmed : StoredTransaction :=
  { hash := "d", from_ := "s", to_ := "r", amount := "1", timestamp := 3,
    nonce := 0, priority := some "normal", epoch := none,
    status := some TxStatus.confirmed, createdAt := none, lastCheckedAt := none }

set_option maxRecDepth 8000 in
/-- Counterexample to C1 as stated: with 51 confirmed local records and an
empty remote set, the oldest confirmed record (hash `h0`, absent from the
remote results) does not appear in the merge output at all (the 50-entry cap
drops it); and with two local records sharing hash `d` (pending first), the
output's only record with hash `d` is `pending`, so the confirmed record
neither appears as confirmed nor is the hash kept from regressing. -/
theorem mergeTransactions_confirmed_dropped_counterexample :
    (confTx 0 ∈ conf51 ∧ (confTx 0).status = some TxStatus.confirmed ∧
      (confTx 0).hash ∉ ([] : List TransactionHistory).map TransactionHistory.hash ∧
      ¬ ∃ e ∈ mergeTransactions conf51 [] 9, e.hash = (confTx 0).hash) ∧
    (dupConfirmed ∈ [dupPending, dupConfirmed] ∧
      dupConfirmed.status = some TxStatus.confirmed ∧
      (¬ ∃ e ∈ mergeTransactions [dupPending, dupConfirmed] [] 9,
        e.hash = "d" ∧ e.status = some TxStatus.confirmed) ∧
      (∃ e ∈ mergeTransactions [dupPending, dupConfirmed] [] 9,
        e.hash = "d" ∧ e.status = some TxStatus.pending)) := by
  refine ⟨⟨by decide, by decide, by decide, by decide⟩, by decide, by decide, by decide, by decide⟩

/-! ## C7: `validatePrivateKey` versus 32-byte decodability (code bug) -/

def bangs64 : String := String.mk (List.replicate 64 '!')

def hexChars64 : String := String.mk (List.replicate 64 'a')

/-- C7 (code bug): `validatePrivateKey` accepts the 64-character string
`"!!…!"`, which no supported encoding decodes to 32 bytes (it is not
base64 and contains no hex digit; each `parseInt` chunk is `NaN`, coerced to
the byte `0` by `Uint8Array.from`); conversely a bare 64-character hex
string, which hex-decodes to exactly 32 bytes, is rejected because it is
also valid base64 and decodes there to 48 bytes. -/
theorem validatePrivateKey_bug :
    validatePrivateKey bangs64 = true ∧
    atob bangs64 = none ∧
    bangs64.data.all (fun c => (hexDigitVal c).isNone) = true ∧
    validatePrivateKey hexChars64 = false ∧
    hexChars64.data.all (fun c => (hexDigitVal c).isSome) = true ∧
    ((atob hexChars64).getD []).length = 48 := by
  exact ⟨by decide, by decide, by decide, by decide, by decide, by decide⟩
